import Mathlib

/-!
# Verification of the VHS course-description sanitizer (`vhs_clean.py`)

A shallow embedding of the description/schedule pipeline of `vhs_clean.py`:
HTML documents are modelled as a tree of element/text nodes, BeautifulSoup's
in-place tree mutations are modelled as pure tree transformations, and the
keyword tables are carried over verbatim.  Python strings are Lean `String`s;
`str.lower()` is modelled for ASCII plus the German umlauts that occur in the
keyword vocabulary; `re.sub(r"\s+", " ", s).strip()` is modelled by a
whitespace tokenizer joined with single spaces, which computes the same
function.

Identity-based deduplication (`id(block)` in `collect_blocks`) is a no-op in
this embedding: BeautifulSoup documents are trees, each node object is visited
at most once by the recursion, so the deduplication set never fires; it is
therefore not modelled.
-/

namespace VhsClean

/-- Python's `\s` class restricted to the ASCII whitespace characters
(space, tab, newline, carriage return, vertical tab, form feed). -/
def isWsChar (c : Char) : Bool :=
  c = ' ' || c = '\t' || c = '\n' || c = '\r' || c = '\x0b' || c = '\x0c'

/-- Flush the (reversed) token accumulator. -/
def flushTok (acc : List Char) : List (List Char) :=
  if acc.isEmpty then [] else [acc.reverse]

/-- Split a character list into maximal runs of non-whitespace characters. -/
def tokensAux : List Char → List Char → List (List Char)
  | acc, [] => flushTok acc
  | acc, c :: cs =>
    if isWsChar c then flushTok acc ++ tokensAux [] cs
    else tokensAux (c :: acc) cs

def tokens (cs : List Char) : List (List Char) := tokensAux [] cs

/-- Join token lists with single spaces. -/
def sepJoin : List (List Char) → List Char
  | [] => []
  | [t] => t
  | t :: ts => t ++ ' ' :: sepJoin ts

/-- `normalize_whitespace` (vhs_clean.py:84): collapse every whitespace run to
one space and trim, computed as tokenize-and-rejoin. -/
def normalizeWhitespace (s : String) : String := ⟨sepJoin (tokens s.data)⟩

/-- Python `str.lower()`, modelled for ASCII letters plus the German umlauts
appearing in the fixed keyword vocabulary. -/
def lowerChar (c : Char) : Char :=
  if c = 'Ä' then 'ä' else if c = 'Ö' then 'ö' else if c = 'Ü' then 'ü'
  else c.toLower

def lowerStr (s : String) : String := ⟨s.data.map lowerChar⟩

/-- `p` occurs at the start of `s` (Python `str.startswith`). -/
def hasPre : List Char → List Char → Bool
  | [], _ => true
  | _ :: _, [] => false
  | p :: ps, c :: cs => p == c && hasPre ps cs

def strStarts (s p : String) : Bool := hasPre p.data s.data

/-- `needle` occurs somewhere in `hay` (Python `in` on strings). -/
def containsSubChars : List Char → List Char → Bool
  | n, [] => n.isEmpty
  | n, c :: cs => hasPre n (c :: cs) || containsSubChars n cs

def containsSub (hay needle : String) : Bool := containsSubChars needle.data hay.data

/-- Drop leading whitespace. -/
def dropWsLead : List Char → List Char
  | [] => []
  | c :: cs => if isWsChar c then dropWsLead cs else c :: cs

/-- Python `str.strip()`. -/
def stripChars (cs : List Char) : List Char :=
  (dropWsLead (dropWsLead cs.reverse).reverse)

def stripStr (s : String) : String := ⟨stripChars s.data⟩

/-- Python `str.rstrip(" .")` used by `normalise_location`. -/
def dropTrailDotSpace (cs : List Char) : List Char :=
  ((cs.reverse.dropWhile fun c => c = ' ' || c = '.')).reverse

/-- Membership of a string in a list of strings (the Python `set` literals of
the module are modelled as lists of their elements). -/
def memStr (s : String) : List String → Bool
  | [] => false
  | k :: ks => s == k || memStr s ks

/-! ## The document model

BeautifulSoup parse trees are modelled as a mutual inductive of nodes and
node lists, so that every tree transformation below is structurally recursive
and kernel-computable.  Attributes are ordered key/value pairs; a multi-valued
`class` attribute is stored as its space-joined string. -/

mutual
inductive Node where
  | text (s : String) : Node
  | elem (tag : String) (attrs : List (String × String)) (children : NodeList) : Node
inductive NodeList where
  | nil : NodeList
  | cons (head : Node) (tail : NodeList) : NodeList
end

deriving instance DecidableEq for Node, NodeList

def nlApp : NodeList → NodeList → NodeList
  | .nil, ms => ms
  | .cons n ns, ms => .cons n (nlApp ns ms)

def nlAll (p : Node → Bool) : NodeList → Bool
  | .nil => true
  | .cons n ns => p n && nlAll p ns

mutual
/-- The `NavigableString` leaves of a subtree, in document order. -/
def leavesN : Node → List String
  | .text s => [s]
  | .elem _ _ c => leavesL c
def leavesL : NodeList → List String
  | .nil => []
  | .cons n ns => leavesN n ++ leavesL ns
end

/-- `tag.get_text(" ")`: all string leaves joined with a single space. -/
def textOf (n : Node) : String := ⟨sepJoin ((leavesN n).map String.data)⟩

/-- `tag.get_text()`: all string leaves concatenated. -/
def textCat (n : Node) : String := ⟨((leavesN n).map String.data).foldr (· ++ ·) []⟩

/-- The whitespace-normalized flattened text of a node.  The module always
normalizes extracted text (`normalize_whitespace(get_text(" "))`, with or
without bs4's `strip=True`, which is invisible after normalization). -/
def normText (n : Node) : String := normalizeWhitespace (textOf n)

/-! ## Keyword and tag vocabulary (vhs_clean.py:10-81) -/

def adminAlwaysKeywords : List String :=
  ["iban", "bic", "bankverbindung", "name der bank", "kontoinhaber"]

def adminStartKeywords : List String :=
  ["zahlungsbedingungen", "teilnahmebedingungen", "gebührenordnung",
   "rücktritt", "haftung", "zahlung"]

def allowedBlockTags : List String :=
  ["p", "ul", "ol", "h1", "h2", "h3", "h4", "h5", "h6", "blockquote"]

def allowedInlineTags : List String :=
  ["strong", "em", "b", "i", "u", "sup", "sub", "span", "a", "code"]

def allowedTags : List String := allowedBlockTags ++ allowedInlineTags ++ ["li", "br"]

def removedTags : List String :=
  ["script", "style", "picture", "figure", "img", "svg", "header", "footer", "noscript"]

def stopKeywords : List String :=
  ["zeiten", "anzahl", "termine", "leitung", "nummer", "ort", "preis"]

/-! ## Attribute helpers -/

/-- First value of an attribute key (`tag.get(k)`; attribute keys are unique). -/
def getAttr (attrs : List (String × String)) (k : String) : Option String :=
  match attrs with
  | [] => none
  | (k', v) :: rest => if k' == k then some v else getAttr rest k

def setAttr (attrs : List (String × String)) (k v : String) : List (String × String) :=
  attrs.map fun p => if p.1 == k then (p.1, v) else p

def delAttr (attrs : List (String × String)) (k : String) : List (String × String) :=
  attrs.filter fun p => p.1 != k

/-- Split a character list on a separator, keeping empty chunks (Python `str.split`). -/
def splitOnCharAux (sep : Char) : List Char → List Char → List (List Char)
  | acc, [] => [acc.reverse]
  | acc, c :: cs =>
    if c = sep then acc.reverse :: splitOnCharAux sep [] cs
    else splitOnCharAux sep (c :: acc) cs

def splitOnChar (sep : Char) (cs : List Char) : List (List Char) := splitOnCharAux sep [] cs

/-- Python `chunk.split(":", 1)` when a colon is present. -/
def splitFirstColon : List Char → Option (List Char × List Char)
  | [] => none
  | c :: cs =>
    if c = ':' then some ([], cs)
    else (splitFirstColon cs).map fun p => (c :: p.1, p.2)

/-- The `style_map` of `convert_span_formatting` (vhs_clean.py:93-98) as an
ordered entry list; dict assignment makes the last entry for a key win. -/
def styleEntries (raw : String) : List (String × String) :=
  (splitOnChar ';' raw.data).filterMap fun chunk =>
    match splitFirstColon chunk with
    | none => none
    | some (k, v) => some (lowerStr (stripStr ⟨k⟩), lowerStr (stripStr ⟨v⟩))

/-- Last binding for a key (Python dict overwrite semantics). -/
def lookupLast (ps : List (String × String)) (k : String) : Option String :=
  match ps with
  | [] => none
  | (k', v) :: rest =>
    match lookupLast rest k with
    | some r => some r
    | none => if k' == k then some v else none

/-- `tag.get("class", [])`, lowercased: the class attribute split on whitespace. -/
def classList (attrs : List (String × String)) : List String :=
  (tokens ((getAttr attrs "class").getD "").data).map fun t => lowerStr ⟨t⟩

def fontWeightVals : List String := ["bold", "bolder", "600", "700", "800", "900"]

/-- `convert_span_formatting` (vhs_clean.py:88-113): infer emphasis from a
span's style/class hints, then drop the style and class attributes. -/
def convertSpanFormatting (tag : String) (attrs : List (String × String)) :
    String × List (String × String) :=
  if tag != "span" then (tag, attrs)
  else
    let sm := styleEntries ((getAttr attrs "style").getD "")
    let classes := classList attrs
    let fw := lookupLast sm "font-weight"
    let fs := lookupLast sm "font-style"
    let tag' :=
      if (match fw with | some v => memStr v fontWeightVals | none => false)
          || classes.any (fun c => containsSub c "bold") then "strong"
      else if (match fs with | some v => memStr v ["italic", "oblique"] | none => false)
          || classes.any (fun c => c == "italic" || c == "kursiv" || containsSub c "italic")
          then "em"
      else "span"
    (tag', attrs.filter fun p => p.1 != "style" && p.1 != "class")

/-- `ALLOWED_ATTRIBUTES` (vhs_clean.py:57-59). -/
def allowedAttrsFor (t : String) : List String :=
  if t == "a" then ["href", "title"] else []

/-- The attribute part of `sanitize_tag` (vhs_clean.py:123-131): reduce to the
per-tag allow-list; strip an anchor's href and drop it when empty. -/
def sanitizeAttrs (t : String) (attrs : List (String × String)) : List (String × String) :=
  let kept := attrs.filter fun p => memStr p.1 (allowedAttrsFor t)
  if t == "a" then
    match getAttr kept "href" with
    | none => kept
    | some v =>
      let v' := stripStr v
      if v' == "" then delAttr kept "href" else setAttr kept "href" v'
  else kept

/-! ## `clean_description_tree` (vhs_clean.py:134-150)

The Python code runs four passes of in-place mutation over `find_all`
snapshots.  Each pass decides per node from that node's own state at its turn,
which for these passes equals its state in the pass's input tree, so each pass
is a pure tree transformation; the passes compose in source order. -/

mutual
/-- Removal pass: `decompose()` every node whose tag is in `REMOVED_TAGS`,
deleting it with all its descendants. -/
def removeN : Node → Option Node
  | .text s => some (.text s)
  | .elem t a c => if memStr t removedTags then none else some (.elem t a (removeL c))
def removeL : NodeList → NodeList
  | .nil => .nil
  | .cons n ns =>
    match removeN n with
    | none => removeL ns
    | some m => .cons m (removeL ns)
end

mutual
/-- `sanitize_tag` applied over the tree: convert span formatting, unwrap
tags outside `ALLOWED_TAGS` (splicing their children), reduce attributes. -/
def sanitizeN : Node → NodeList
  | .text s => .cons (.text s) .nil
  | .elem t a c =>
    let p := convertSpanFormatting t a
    if memStr p.1 allowedTags then
      .cons (.elem p.1 (sanitizeAttrs p.1 p.2) (sanitizeL c)) .nil
    else sanitizeL c
def sanitizeL : NodeList → NodeList
  | .nil => .nil
  | .cons n ns => nlApp (sanitizeN n) (sanitizeL ns)
end

/-- `(ALLOWED_BLOCK_TAGS | {"ul","ol"}) - {"p"}` (vhs_clean.py:154). -/
def blockLikeTags : List String := allowedBlockTags.filter fun t => t != "p"

def hasBlockLikeChild : NodeList → Bool
  | .nil => false
  | .cons (.text _) ns => hasBlockLikeChild ns
  | .cons (.elem t _ _) ns => memStr t blockLikeTags || hasBlockLikeChild ns

mutual
/-- `unwrap_block_wrappers` (vhs_clean.py:153-157): unwrap every `p` that has
a direct block-level child.  Each `p`'s test reads its own (still original)
children, parents being processed before their descendants. -/
def uwN : Node → NodeList
  | .text s => .cons (.text s) .nil
  | .elem t a c =>
    if t == "p" && hasBlockLikeChild c then uwL c
    else .cons (.elem t a (uwL c)) .nil
def uwL : NodeList → NodeList
  | .nil => .nil
  | .cons n ns => nlApp (uwN n) (uwL ns)
end

def isLiElem : Node → Bool
  | .elem t _ _ => t == "li"
  | .text _ => false

/-- Wrap a pending run of orphan `li` nodes in a fresh `ul` (vhs_clean.py:174-178). -/
def flushRun : NodeList → NodeList → NodeList
  | .nil, rest => rest
  | .cons m ms, rest => .cons (.elem "ul" [] (.cons m ms)) rest

/-- Group maximal runs of adjacent `li` children into synthesized `ul`
wrappers; any other child (elements and strings alike) ends the run. -/
def groupLiAux : NodeList → NodeList → NodeList
  | run, .nil => flushRun run .nil
  | run, .cons n ns =>
    if isLiElem n then groupLiAux (nlApp run (.cons n .nil)) ns
    else flushRun run (.cons n (groupLiAux .nil ns))

def groupLi (ns : NodeList) : NodeList := groupLiAux .nil ns

mutual
/-- `normalize_orphan_list_items` (vhs_clean.py:160-180): post-order; children
of `ul`/`ol` are left as they are, all other nodes get their orphan `li`
children grouped into synthesized `ul`s. -/
def noliN : Node → Node
  | .text s => .text s
  | .elem t a c =>
    let c' := noliL c
    if t == "ul" || t == "ol" then .elem t a c'
    else .elem t a (groupLi c')
def noliL : NodeList → NodeList
  | .nil => .nil
  | .cons n ns => .cons (noliN n) (noliL ns)
end

mutual
/-- Empty-element pruning (vhs_clean.py:144-150): decompose every non-`br`
element whose normalized text is empty.  A pruned subtree's leaves are all
whitespace, so pruning never changes any other node's normalized text. -/
def pruneN : Node → Option Node
  | .text s => some (.text s)
  | .elem t a c =>
    if t == "br" then some (.elem t a (pruneL c))
    else if normText (.elem t a c) == "" then none
    else some (.elem t a (pruneL c))
def pruneL : NodeList → NodeList
  | .nil => .nil
  | .cons n ns =>
    match pruneN n with
    | none => pruneL ns
    | some m => .cons m (pruneL ns)
end

/-- `clean_description_tree` (vhs_clean.py:134-150) on the root's child list:
removal, sanitization, block-wrapper unwrapping, orphan-`li` normalization
(the root-level grouping included), then empty pruning. -/
def cleanDoc (doc : NodeList) : NodeList :=
  pruneL (groupLi (noliL (uwL (sanitizeL (removeL doc)))))

/-! ## `collect_blocks`, boilerplate filter, truncation, title block -/

/-- `collect_blocks` (vhs_clean.py:183-216).  Identity deduplication omitted:
on a tree each node is emitted at most once (see the header note). -/
def collectBlocks : NodeList → NodeList
  | .nil => .nil
  | .cons (.text s) ns =>
    let t := normalizeWhitespace s
    if t == "" then collectBlocks ns
    else .cons (.elem "p" [] (.cons (.text t) .nil)) (collectBlocks ns)
  | .cons (.elem t a c) ns =>
    if memStr t allowedBlockTags then .cons (.elem t a c) (collectBlocks ns)
    else if memStr t allowedInlineTags then
      .cons (.elem "p" [] (.cons (.elem t a c) .nil)) (collectBlocks ns)
    else nlApp (collectBlocks c) (collectBlocks ns)

/-- `is_admin_block` (vhs_clean.py:219-235); `text` is the caller-supplied
normalized flattened text of the block. -/
def isAdminBlock (b : Node) (text : String) : Bool :=
  if text == "" then false
  else
    let lowered := lowerStr text
    if (match b with
        | .elem t _ _ => memStr t ["ul", "ol", "li", "table"]
        | .text _ => false) then false
    else if adminAlwaysKeywords.any (fun k => containsSub lowered k) then true
    else adminStartKeywords.any fun k => strStarts (normalizeWhitespace lowered) k

/-- The loop of `filter_admin_blocks` (vhs_clean.py:238-251); `last` is the
`last_text` of the previous kept block. -/
def filterAdminAux : Option String → NodeList → NodeList
  | _, .nil => .nil
  | last, .cons b bs =>
    let t := normText b
    if t == "" then filterAdminAux last bs
    else if isAdminBlock b t then filterAdminAux last bs
    else if last == some t then filterAdminAux last bs
    else .cons b (filterAdminAux (some t) bs)

def filterAdminBlocks (bs : NodeList) : NodeList := filterAdminAux none bs

def startsWithStopKeyword (b : Node) : Bool :=
  stopKeywords.any fun k => strStarts (lowerStr (normText b)) k

/-- `truncate_after_stop_keywords` (vhs_clean.py:254-262): keep blocks until
the first whose lowered normalized text starts with a stop keyword. -/
def truncateAfterStopKeywords : NodeList → NodeList
  | .nil => .nil
  | .cons b bs =>
    if startsWithStopKeyword b then .nil
    else .cons b (truncateAfterStopKeywords bs)

/-- The bold title paragraph built by `ensure_title_block` (vhs_clean.py:275-278). -/
def titleParagraph (nt : String) : Node :=
  .elem "p" [] (.cons (.elem "strong" [] (.cons (.text nt) .nil)) .nil)

/-- `ensure_title_block` (vhs_clean.py:265-279). -/
def ensureTitleBlock (bs : NodeList) (title : String) : NodeList :=
  let nt := normalizeWhitespace title
  if nt == "" then bs
  else
    match bs with
    | .cons b _ =>
      if lowerStr (normText b) == lowerStr nt then bs
      else .cons (titleParagraph nt) bs
    | .nil => .cons (titleParagraph nt) .nil

/-! ## Rendering (`blocks_to_string` / bs4 `decode`) -/

/-- bs4's minimal output formatter escapes `&`, `<`, `>` in text. -/
def escTextChar : Char → List Char
  | '&' => "&amp;".data
  | '<' => "&lt;".data
  | '>' => "&gt;".data
  | c => [c]

def escText (s : String) : String :=
  ⟨s.data.foldr (fun c acc => escTextChar c ++ acc) []⟩

/-- Attribute values additionally escape double quotes. -/
def escAttrChar : Char → List Char
  | '"' => "&quot;".data
  | c => escTextChar c

def escAttr (s : String) : String :=
  ⟨s.data.foldr (fun c acc => escAttrChar c ++ acc) []⟩

def renderAttrsStr (a : List (String × String)) : String :=
  a.foldr (fun p acc => " " ++ p.1 ++ "=\"" ++ escAttr p.2 ++ "\"" ++ acc) ""

mutual
/-- bs4 `decode` of a node (html.parser, minimal formatter; `br` is void). -/
def renderN : Node → String
  | .text s => escText s
  | .elem t a c =>
    if t == "br" then "<br/>"
    else "<" ++ t ++ renderAttrsStr a ++ ">" ++ renderL c ++ "</" ++ t ++ ">"
def renderL : NodeList → String
  | .nil => ""
  | .cons n ns => renderN n ++ renderL ns
end

def renderBlocksSep : NodeList → String
  | .nil => ""
  | .cons b .nil => renderN b
  | .cons b (.cons b' bs) => renderN b ++ "\n\n" ++ renderBlocksSep (.cons b' bs)

/-- `blocks_to_string` (vhs_clean.py:282-292): blocks joined by blank lines,
decoded and stripped. -/
def blocksToString (bs : NodeList) : String :=
  match bs with
  | .nil => ""
  | .cons _ _ => stripStr (renderBlocksSep bs)

/-- The block pipeline of `extract_description` (vhs_clean.py:543-552). -/
def extractBlocks (doc : NodeList) (title : String) : NodeList :=
  ensureTitleBlock
    (truncateAfterStopKeywords (filterAdminBlocks (collectBlocks (cleanDoc doc)))) title

/-- `extract_description` (vhs_clean.py:543-552) on a parsed document. -/
def extractDescription (doc : NodeList) (title : String) : String :=
  blocksToString (extractBlocks doc title)

/-- The node is a `NavigableString` leaf. -/
def isTextN : Node → Bool
  | .text _ => true
  | .elem _ _ _ => false

/-- The list starts with a text node. -/
def headText : NodeList → Bool
  | .cons (.text _) _ => true
  | _ => false

/-- Prepend a node onto an already merge-normalized list: an empty text leaf
vanishes, a text leaf absorbs a following text leaf (serialization writes
text leaves back to back, so a parse returns one maximal text run). -/
def consMerged : Node → NodeList → NodeList
  | .text s, rest =>
    if s == "" then rest
    else match rest with
      | .cons (.text s2) rest2 => .cons (.text (s ++ s2)) rest2
      | _ => .cons (.text s) rest
  | n, rest => .cons n rest

mutual
/-- Normalize a subtree the way serialize-then-parse does: adjacent text
leaves are concatenated into one and empty text leaves disappear; the
element structure is unchanged. -/
def mergeN : Node → Node
  | .text s => .text s
  | .elem t a c => .elem t a (mergeL c)
def mergeL : NodeList → NodeList
  | .nil => .nil
  | .cons n ns => consMerged (mergeN n) (mergeL ns)
end

mutual
/-- The subtree is a fixed point of text-leaf merging: no empty text leaf
and no two adjacent text leaves anywhere. -/
def tmN : Node → Bool
  | .text s => s != ""
  | .elem _ _ c => tmL c
def tmL : NodeList → Bool
  | .nil => true
  | .cons n ns => tmN n && !(isTextN n && headText ns) && tmL ns
end

/-- The split-preserving re-parse: the element subtrees of `bs` separated by
the literal `"\n\n"` text nodes `blocks_to_string` writes between them.  A
real parse cannot recover text-leaf splits from the serialized string, so
this is only an intermediate; the faithful model is `reparseRendered`. -/
def reparseKeep : NodeList → NodeList
  | .nil => .nil
  | .cons b .nil => .cons b .nil
  | .cons b (.cons b' bs) => .cons b (.cons (.text "\n\n") (reparseKeep (.cons b' bs)))

/-- Modelled from the spec: "a lenient best-effort parser is assumed"
(the parser itself is the external bs4 collaborator, not in this repository).
On the sanitizer's restricted output vocabulary parsing inverts
serialization up to the information the string retains: escaping is undone,
the element subtrees of `bs` come back separated by the literal `"\n\n"`
text nodes written between them, and — since text leaves are serialized back
to back — each parsed block is the original block with adjacent text leaves
merged and empty text leaves dropped (`mergeN`). -/
def reparseRendered : NodeList → NodeList
  | .nil => .nil
  | .cons b .nil => .cons (mergeN b) .nil
  | .cons b (.cons b' bs) =>
    .cons (mergeN b) (.cons (.text "\n\n") (reparseRendered (.cons b' bs)))

/-! ## Schedule extractor (vhs_clean.py:295-540) -/

/-- `iter_stripped_strings` (vhs_clean.py:295-299): bs4 `stripped_strings`
(each leaf stripped, empties skipped), each normalized, empties skipped. -/
def iterStrippedStrings (n : Node) : List String :=
  (leavesN n).filterMap fun s =>
    let st := stripStr s
    if st == "" then none
    else
      let t := normalizeWhitespace st
      if t == "" then none else some t

/-- `format_times_summary` (vhs_clean.py:302-303). -/
def formatTimesSummary (cell : Node) : List String := iterStrippedStrings cell

def headIsWs : List Char → Bool
  | [] => false
  | c :: _ => isWsChar c

mutual
/-- `re.sub(r",\s+", " · ", line)` of `prettify_summary_line`: a comma
followed by a whitespace run becomes a middle dot with single spaces. -/
def prettySub : List Char → List Char
  | [] => []
  | c :: cs =>
    if c = ',' && headIsWs cs then ' ' :: '·' :: ' ' :: prettySkip cs
    else c :: prettySub cs
/-- Consume the whitespace run after a replaced comma, then continue. -/
def prettySkip : List Char → List Char
  | [] => []
  | c :: cs =>
    if isWsChar c then prettySkip cs
    else if c = ',' && headIsWs cs then ' ' :: '·' :: ' ' :: prettySkip cs
    else c :: prettySub cs
end

/-- `prettify_summary_line` (vhs_clean.py:306-310). -/
def prettifySummaryLine (line : String) : String :=
  if line == "" then "" else ⟨prettySub line.data⟩

/-- One per-session schedule entry (`format_times_details` builds a dict with
only nonempty values; an absent key is modelled as the empty string, matching
`item.get(k, "")` at every use site). -/
structure DetailItem where
  date : String := ""
  time : String := ""
  status : String := ""
  location : String := ""
deriving DecidableEq, Repr

mutual
/-- bs4 `find(tag)`/`select` order: a node matches itself before its
descendants, earlier siblings before later ones. -/
def findPreN (t : String) : Node → Option Node
  | .text _ => none
  | .elem tg a c => if tg == t then some (.elem tg a c) else findPreL t c
def findPreL (t : String) : NodeList → Option Node
  | .nil => none
  | .cons n ns =>
    match findPreN t n with
    | some m => some m
    | none => findPreL t ns
end

/-- `tag.find(t)`: first matching descendant (the node itself excluded). -/
def findInside (t : String) : Node → Option Node
  | .text _ => none
  | .elem _ _ c => findPreL t c

mutual
/-- All matching nodes of a subtree in document order (including matches
nested inside other matches, as bs4 `find_all` does). -/
def findAllN (t : String) : Node → List Node
  | .text _ => []
  | .elem tg a c => (if tg == t then [Node.elem tg a c] else []) ++ findAllL t c
def findAllL (t : String) : NodeList → List Node
  | .nil => []
  | .cons n ns => findAllN t n ++ findAllL t ns
end

/-- `tag.find_all(t)`: matching descendants (the node itself excluded). -/
def findAllInside (t : String) : Node → List Node
  | .text _ => []
  | .elem _ _ c => findAllL t c

def nlOf : List Node → NodeList
  | [] => .nil
  | n :: ns => .cons n (nlOf ns)

def joinWith (sep : String) : List String → String
  | [] => ""
  | [x] => x
  | x :: y :: xs => x ++ sep ++ joinWith sep (y :: xs)

/-- `format_times_details` (vhs_clean.py:313-359). -/
def formatTimesDetails (cell : Node) : List DetailItem × Option String :=
  let header : Option String :=
    match findInside "summary" cell with
    | none => none
    | some st =>
      let stext := normalizeWhitespace
        (joinWith " " ((leavesN st).filterMap fun s =>
          let x := stripStr s
          if x == "" then none else some x))
      if stext == "" then none else some ("Termine (" ++ stext ++ ")")
  match findInside "table" cell with
  | none => ([], header)
  | some tbl =>
    let items := (findAllInside "tr" tbl).filterMap fun row =>
      match findAllInside "td" row with
      | [] => none
      | c0 :: rest =>
        let primary := iterStrippedStrings c0
        let dateT := (primary.get? 0).getD ""
        let timeT := (primary.get? 1).getD ""
        let statusT := (primary.get? 2).getD ""
        let locT :=
          match rest with
          | [] => ""
          | c1 :: _ => joinWith " " (iterStrippedStrings c1)
        if dateT == "" && timeT == "" && statusT == "" && locT == "" then none
        else some { date := dateT, time := timeT, status := statusT, location := locT }
    (items, header)

/-- `normalise_location` (vhs_clean.py:362-365): whitespace-normalize and
strip trailing spaces and periods; no case folding. -/
def normaliseLocation (s : String) : String :=
  if s == "" then "" else ⟨dropTrailDotSpace (normalizeWhitespace s).data⟩

def idxOf (c : Char) : List Char → Option Nat
  | [] => none
  | x :: xs => if x = c then some 0 else (idxOf c xs).map (· + 1)

def lastIdxOf (c : Char) (cs : List Char) : Option Nat :=
  match idxOf c cs.reverse with
  | none => none
  | some i => some (cs.length - 1 - i)

/-- `split_heading_parts` (vhs_clean.py:368-382). -/
def splitHeadingParts (raw : Option String) : String × String :=
  let heading := normalizeWhitespace (raw.getD "")
  if heading == "" then ("Termine", "")
  else
    let cs := heading.data
    if containsSub heading "(" && (match cs.getLast? with | some ')' => true | _ => false) then
      match idxOf '(' cs, lastIdxOf ')' cs with
      | some oi, some ci =>
        if oi < ci then
          let label := stripStr ⟨cs.take oi⟩
          let badge := stripStr ⟨(cs.drop (oi + 1)).take (ci - (oi + 1))⟩
          if label == "" then (heading, "") else (label, badge)
        else (heading, "")
      | _, _ => (heading, "")
    else (heading, "")

/-- `build_times_detail_text` (vhs_clean.py:385-401). -/
def buildTimesDetailText (item : DetailItem) (courseLocation : String) : String :=
  let parts :=
    (if item.date == "" then [] else [item.date])
    ++ (if item.time == "" then [] else [item.time])
    ++ (if item.location != ""
          && normaliseLocation item.location != normaliseLocation courseLocation
        then [item.location] else [])
    ++ (if item.status == "" then [] else [item.status])
  let core := joinWith " · " parts
  if core == "" then "" else "- " ++ core

/-- The status span's class list (vhs_clean.py:464-471), space-joined as bs4
renders a multi-valued class. -/
def statusClasses (statusText : String) : String :=
  let lowered := lowerStr statusText
  if containsSub lowered "abgesagt" then "vhs-times-status vhs-times-status--cancelled"
  else if containsSub lowered "ausgebucht" || containsSub lowered "belegt" then
    "vhs-times-status vhs-times-status--full"
  else "vhs-times-status"

/-- One `li` of the schedule list (the loop body at vhs_clean.py:442-473). -/
def timesListItem (d : DetailItem) (courseLocation : String) : Node :=
  let kids : List Node :=
    (if d.date == "" then []
     else [.elem "span" [("class", "vhs-times-date")] (.cons (.text d.date) .nil)])
    ++ (if d.time == "" then []
        else [.elem "span" [("class", "vhs-times-time")] (.cons (.text d.time) .nil)])
    ++ (if d.location != ""
          && normaliseLocation d.location != normaliseLocation courseLocation
        then [.elem "span" [("class", "vhs-times-location")] (.cons (.text d.location) .nil)]
        else [])
    ++ (if d.status == "" then []
        else [.elem "span" [("class", statusClasses d.status)] (.cons (.text d.status) .nil)])
  .elem "li" [("class", "vhs-times-list-item")] (nlOf kids)

/-- `build_times_html` (vhs_clean.py:404-481). -/
def buildTimesHtml (summaryLines : List String) (detailItems : List DetailItem)
    (heading : Option String) (courseLocation : String) : String :=
  if summaryLines.isEmpty && detailItems.isEmpty then ""
  else
    let summaryKids := summaryLines.filterMap fun line =>
      let t := prettifySummaryLine line
      if t == "" then none
      else some (Node.elem "div" [("class", "vhs-times-summary-item")] (.cons (.text t) .nil))
    let summaryPart : List Node :=
      if summaryLines.isEmpty then []
      else if summaryKids.isEmpty then []
      else [Node.elem "div" [("class", "vhs-times-summary-grid")] (nlOf summaryKids)]
    let detailPart : List Node :=
      if detailItems.isEmpty then []
      else
        let hp := splitHeadingParts heading
        let headingKids :=
          [Node.elem "span" [("class", "vhs-times-heading-label")] (.cons (.text hp.1) .nil)]
          ++ (if hp.2 == "" then []
              else [Node.elem "span" [("class", "vhs-times-count")] (.cons (.text hp.2) .nil)])
        let headingTag := Node.elem "div" [("class", "vhs-times-heading")] (nlOf headingKids)
        let listKids := detailItems.filterMap fun d =>
          match timesListItem d courseLocation with
          | .elem _ _ .nil => none
          | li => some li
        headingTag ::
          (if listKids.isEmpty then []
           else [Node.elem "ul" [("class", "vhs-times-list")] (nlOf listKids)])
    renderN (Node.elem "div" [("class", "vhs-times")] (nlOf (summaryPart ++ detailPart)))

/-- CSS selector `table.layoutgrid`: a `table` whose class attribute has the
token `layoutgrid`. -/
def isLayoutTable : Node → Bool
  | .elem t a _ =>
    t == "table" && (tokens ((getAttr a "class").getD "").data).any fun w => (⟨w⟩ : String) == "layoutgrid"
  | .text _ => false

mutual
/-- `select_one("table.layoutgrid")` combined with its later `decompose()`:
the first matching node in document order, plus the tree without it. -/
def extractLayoutL : NodeList → Option (Node × NodeList)
  | .nil => none
  | .cons n ns =>
    if isLayoutTable n then some (n, ns)
    else
      match extractLayoutN n with
      | some p => some (p.1, .cons p.2 ns)
      | none =>
        match extractLayoutL ns with
        | some p => some (p.1, .cons n p.2)
        | none => none
def extractLayoutN : Node → Option (Node × Node)
  | .text _ => none
  | .elem t a c =>
    match extractLayoutL c with
    | some p => some (p.1, .elem t a p.2)
    | none => none
end

/-- The label/value reading of one layout-table row (vhs_clean.py:494-502). -/
def labelKeyOf (row : Node) : Option (String × Node) :=
  match findAllInside "td" row with
  | c0 :: c1 :: _ =>
    (match findInside "label" c0 with
     | none => none
     | some lbl => some (lowerStr (normalizeWhitespace (textCat lbl)), c1))
  | _ => none

/-- The row loop of `extract_times` (vhs_clean.py:493-510), accumulating
summary lines, detail items and the first nonempty header. -/
def extractTimesRows (rows : List Node) : List String × List DetailItem × Option String :=
  rows.foldl
    (fun acc row =>
      match labelKeyOf row with
      | none => acc
      | some kv =>
        if kv.1 == "zeiten" then (acc.1 ++ formatTimesSummary kv.2, acc.2.1, acc.2.2)
        else if kv.1 == "anzahl" || kv.1 == "termine" then
          let p := formatTimesDetails kv.2
          (acc.1, acc.2.1 ++ p.1,
            match acc.2.2 with
            | some h => some h
            | none => p.2)
        else acc)
    ([], [], none)

/-- `extract_times` (vhs_clean.py:484-540): the text rendering, the HTML
rendering, and the document with the layout table decomposed. -/
def extractTimes (doc : NodeList) (courseLocation : Option String) :
    String × String × NodeList :=
  match extractLayoutL doc with
  | none => ("", "", doc)
  | some tp =>
    let acc := extractTimesRows (findAllInside "tr" tp.1)
    let summaryLines := acc.1.filterMap fun line =>
      if line == "" then none else some (prettifySummaryLine line)
    let detailItems := acc.2.1
    let header := acc.2.2
    let clv := normalizeWhitespace (courseLocation.getD "")
    let sec1 : List String :=
      if summaryLines.isEmpty then [] else [joinWith "\n" summaryLines]
    let sec2 : List String :=
      if detailItems.isEmpty then []
      else
        let detailLines := detailItems.filterMap fun it =>
          let l := buildTimesDetailText it clv
          if l == "" then none else some l
        if detailLines.isEmpty then []
        else
          let hp := splitHeadingParts header
          let ht := if hp.2 == "" then hp.1 else hp.1 ++ " – " ++ hp.2
          [ht ++ "\n" ++ joinWith "\n" detailLines]
    let textValue := stripStr (joinWith "\n\n" ((sec1 ++ sec2).filter (· != "")))
    (textValue, buildTimesHtml summaryLines detailItems header clv, tp.2)

/-! ## Course records and payloads (vhs_clean.py:555-593) -/

mutual
/-- JSON values of the course export. -/
inductive JVal where
  | str (s : String)
  | num (n : Int)
  | bool (b : Bool)
  | null
  | arr (items : JList)
  | obj (fields : JFields)
/-- A JSON array. -/
inductive JList where
  | nil : JList
  | cons (head : JVal) (tail : JList) : JList
/-- A JSON object: ordered fields with unique keys (a Python dict). -/
inductive JFields where
  | nil : JFields
  | cons (key : String) (val : JVal) (tail : JFields) : JFields
end

deriving instance DecidableEq for JVal, JList, JFields

/-- First binding of a key (`dict.get`; keys of a Python dict are unique). -/
def dGet (d : JFields) (k : String) : Option JVal :=
  match d with
  | .nil => none
  | .cons k' v rest => if k' == k then some v else dGet rest k

def dHas (d : JFields) (k : String) : Bool :=
  match d with
  | .nil => false
  | .cons k' _ rest => k' == k || dHas rest k

def dReplace (d : JFields) (k : String) (v : JVal) : JFields :=
  match d with
  | .nil => .nil
  | .cons k' v' rest =>
    if k' == k then .cons k' v (dReplace rest k v)
    else .cons k' v' (dReplace rest k v)

def dAppend (d : JFields) (k : String) (v : JVal) : JFields :=
  match d with
  | .nil => .cons k v .nil
  | .cons k' v' rest => .cons k' v' (dAppend rest k v)

/-- `d[k] = v`: update in place when the key exists, else append. -/
def dSet (d : JFields) (k : String) (v : JVal) : JFields :=
  if dHas d k then dReplace d k v else dAppend d k v

/-- `del d[k]`. -/
def dDel (d : JFields) (k : String) : JFields :=
  match d with
  | .nil => .nil
  | .cons k' v rest => if k' == k then dDel rest k else .cons k' v (dDel rest k)

/-- `course.get("beschreibung") or ""` and the string reads with default `""`:
absent, null and empty values give `""`.  (A non-string value in one of these
fields is outside the modelled input shape; the source would fail on it
downstream.) -/
def strOrEmpty : Option JVal → String
  | some (.str s) => s
  | _ => ""

def strOpt : Option JVal → Option String
  | some (.str s) => some s
  | _ => none

/-- `process_course` (vhs_clean.py:555-578) given the parsed tree `doc` of the
course's raw `beschreibung` HTML. -/
def processCourseDoc (course : JFields) (doc : NodeList) : JFields :=
  let rawHtml := strOrEmpty (dGet course "beschreibung")
  let c1 := dSet course "beschreibung_raw" (.str rawHtml)
  let times := extractTimes doc (strOpt (dGet course "ort"))
  let description := extractDescription times.2.2 (strOrEmpty (dGet course "titel"))
  let c2 := dSet c1 "beschreibung" (.str description)
  let c3 :=
    if times.1 != "" then dSet c2 "zeiten" (.str times.1)
    else dSet c2 "zeiten" (.str (normalizeWhitespace (strOrEmpty (dGet course "zeiten"))))
  if times.2.1 != "" then dSet c3 "zeiten_html" (.str times.2.1)
  else dDel c3 "zeiten_html"

/-- `process_course` with the external bs4 parser abstracted as `parse`
(parsing is the out-of-scope collaborator; an empty `beschreibung` skips it,
`BeautifulSoup("")` being the empty document). -/
def processCourse (parse : String → NodeList) (course : JFields) : JFields :=
  let rawHtml := strOrEmpty (dGet course "beschreibung")
  processCourseDoc course (if rawHtml == "" then .nil else parse rawHtml)

/-- The two top-level payload shapes of `transform_payload`. -/
inductive Payload where
  | arr (items : JList)
  | obj (fields : JFields)

/-- A course entry of the `data` list (`process_course` requires an object;
non-object entries are outside the modelled input shape). -/
def objOrEmpty : JVal → JFields
  | .obj d => d
  | _ => .nil

/-- `payload.get("data", [])` followed by `courses or []`. -/
def dataCourses : Option JVal → JList
  | some (.arr l) => l
  | _ => .nil

/-- `[process_course(course) for course in courses]`. -/
def processList (parse : String → NodeList) : JList → JList
  | .nil => .nil
  | .cons c rest => .cons (JVal.obj (processCourse parse (objOrEmpty c))) (processList parse rest)

/-- `{k: v for k, v in payload.items() if k != "data"}`. -/
def dFilterNotData (d : JFields) : JFields :=
  match d with
  | .nil => .nil
  | .cons k v rest =>
    if k == "data" then dFilterNotData rest else .cons k v (dFilterNotData rest)

/-- `transform_payload` (vhs_clean.py:581-593): always an object whose `data`
field (appended last) holds the processed course list. -/
def transformPayload (parse : String → NodeList) (p : Payload) : JFields :=
  let courses :=
    match p with
    | .obj d => dataCourses (dGet d "data")
    | .arr l => l
  let processed := processList parse courses
  match p with
  | .obj d => dAppend (dFilterNotData d) "data" (JVal.arr processed)
  | .arr _ => .cons "data" (JVal.arr processed) .nil

/-! ## Helper notions used by the claim statements -/

def nlLength : NodeList → Nat
  | .nil => 0
  | .cons _ ns => nlLength ns + 1

def nlTake : Nat → NodeList → NodeList
  | 0, _ => .nil
  | _ + 1, .nil => .nil
  | k + 1, .cons n ns => .cons n (nlTake k ns)

/-- Index of the first block whose lowered normalized text starts with a stop
keyword. -/
def nlIdxOfStop : NodeList → Option Nat
  | .nil => none
  | .cons b bs =>
    if startsWithStopKeyword b then some 0 else (nlIdxOfStop bs).map (· + 1)

/-- The first block's flattened text equals the given normalized title,
case-insensitively. -/
def headMatchesTitle : NodeList → String → Bool
  | .nil, _ => false
  | .cons b _, nt => lowerStr (normText b) == lowerStr nt

/-- Tags exempt from administrative classification (vhs_clean.py:224). -/
def exemptListTag : Node → Bool
  | .elem t _ _ => memStr t ["ul", "ol", "li", "table"]
  | .text _ => false

/-- The block's lowered flattened text contains one of the always-match
administrative keywords. -/
def hasAlwaysKeyword (b : Node) : Bool :=
  adminAlwaysKeywords.any fun k => containsSub (lowerStr (normText b)) k

/-- The bold hint of the span-emphasis rule: a declared font weight of
`bold`, `bolder`, `600`, `700`, `800` or `900`, or a class name containing
`bold`. -/
def isBoldHint (attrs : List (String × String)) : Bool :=
  (match lookupLast (styleEntries ((getAttr attrs "style").getD "")) "font-weight" with
   | some v => memStr v fontWeightVals
   | none => false)
  || (classList attrs).any fun c => containsSub c "bold"

/-- The italic hint: a font style of `italic`/`oblique`, or a class equal to
`italic`/`kursiv` or containing `italic`. -/
def isItalicHint (attrs : List (String × String)) : Bool :=
  (match lookupLast (styleEntries ((getAttr attrs "style").getD "")) "font-style" with
   | some v => memStr v ["italic", "oblique"]
   | none => false)
  || (classList attrs).any fun c => c == "italic" || c == "kursiv" || containsSub c "italic"

def nlHasLocSpan : NodeList → Bool
  | .nil => false
  | .cons (.elem t a _) ns =>
    (t == "span" && getAttr a "class" == some "vhs-times-location") || nlHasLocSpan ns
  | .cons (.text _) ns => nlHasLocSpan ns

/-- The rendered schedule list item carries a location span. -/
def hasLocSpan : Node → Bool
  | .elem _ _ c => nlHasLocSpan c
  | .text _ => false

mutual
/-- Every element of the subtree satisfies the tag/attribute predicate `q`. -/
def allElemsN (q : String → List (String × String) → Bool) : Node → Bool
  | .text _ => true
  | .elem t a c => q t a && allElemsL q c
def allElemsL (q : String → List (String × String) → Bool) : NodeList → Bool
  | .nil => true
  | .cons n ns => allElemsN q n && allElemsL q ns
end

/-- Tag predicate of C1: the tag is not in the removed set. -/
def noRemovedTagQ (t : String) (_ : List (String × String)) : Bool :=
  !memStr t removedTags

/-- Tag predicate: the tag is in the allowed vocabulary. -/
def allowedTagQ (t : String) (_ : List (String × String)) : Bool :=
  memStr t allowedTags

/-- Attribute predicate: the attributes are a fixed point of the sanitizer's
attribute reduction (so a second sanitization pass leaves them unchanged). -/
def cleanAttrsQ (t : String) (a : List (String × String)) : Bool :=
  a == sanitizeAttrs t a

mutual
/-- Every non-`br` element of the subtree has nonempty normalized text. -/
def neTextN : Node → Bool
  | .text _ => true
  | .elem t a c => (t == "br" || normText (.elem t a c) != "") && neTextL c
def neTextL : NodeList → Bool
  | .nil => true
  | .cons n ns => neTextN n && neTextL ns
end

mutual
/-- No paragraph element of the subtree has a direct block-level child. -/
def nbN : Node → Bool
  | .text _ => true
  | .elem t _ c => !(t == "p" && hasBlockLikeChild c) && nbL c
def nbL : NodeList → Bool
  | .nil => true
  | .cons n ns => nbN n && nbL ns
end

mutual
/-- No orphan `li`: an `li` element appears only as direct child of a
`ul`/`ol`; the flag says whether the parent is such a list element. -/
def liOkN : Bool → Node → Bool
  | _, .text _ => true
  | inList, .elem t _ c => (t != "li" || inList) && liOkL (t == "ul" || t == "ol") c
def liOkL : Bool → NodeList → Bool
  | _, .nil => true
  | inList, .cons n ns => liOkN inList n && liOkL inList ns
end

/-- The node is an element with an allowed block-level tag. -/
def blockTagB : Node → Bool
  | .elem t _ _ => memStr t allowedBlockTags
  | .text _ => false

/-- The block passes the boilerplate filter on its own: nonempty normalized
text and not administrative. -/
def goodBlockB (b : Node) : Bool :=
  normText b != "" && !(isAdminBlock b (normText b))

def notStopB (b : Node) : Bool := !startsWithStopKeyword b

/-- Adjacent normalized texts pairwise distinct, the first also distinct from
the given previous text (the `last_text` state of `filter_admin_blocks`). -/
def distinctFrom : Option String → NodeList → Bool
  | _, .nil => true
  | last, .cons b bs =>
    (last != some (normText b)) && distinctFrom (some (normText b)) bs

/-- A token is nonempty and contains no whitespace. -/
def goodTok (t : List Char) : Bool :=
  !t.isEmpty && t.all fun c => !isWsChar c

def goodToks (ts : List (List Char)) : Bool := ts.all goodTok

/-- The flattened text of a node list (root-level `get_text(" ")`). -/
def docText (ns : NodeList) : List Char := sepJoin ((leavesL ns).map String.data)

/-- The whitespace-separated tokens of a node's flattened text. -/
def ntokensN (n : Node) : List (List Char) := tokens (textOf n).data

def ntokensL (ns : NodeList) : List (List Char) := tokens (docText ns)

/-- The element predicate that makes a second sanitization pass the
identity: an allowed tag and attributes already reduced by the sanitizer. -/
def saneQ (t : String) (a : List (String × String)) : Bool :=
  memStr t allowedTags && (a == sanitizeAttrs t a)

/-- The course title's lowered normalized form starts with a stop keyword
(the condition under which the title paragraph itself is truncated away). -/
def titleStopB (title : String) : Bool :=
  stopKeywords.any fun k => strStarts (lowerStr (normalizeWhitespace title)) k

/-! ## Concrete inputs for counterexamples and witnesses -/

/-- A fragment whose only text sits inside a `table` element. -/
def exTableDoc : NodeList :=
  .cons (.elem "table" []
    (.cons (.elem "tr" []
      (.cons (.elem "td" [] (.cons (.text "Geheim") .nil)) .nil)) .nil)) .nil

/-- A one-paragraph fragment. -/
def exHalloDoc : NodeList := .cons (.elem "p" [] (.cons (.text "Hallo") .nil)) .nil

/-- A paragraph whose text leaves end up split after the sanitizer unwraps
the inner `div`: children `"i"` and `"ban"`.  `get_text(" ")` space-joins
leaves, so the first run reads `"i ban"`, but the serialized form `<p>iban</p>`
re-parses to the single leaf `"iban"`. -/
def exSplitDoc : NodeList :=
  .cons (.elem "p" [] (.cons (.text "i")
    (.cons (.elem "div" [] (.cons (.text "ban") .nil)) .nil))) .nil

/-- A list block whose text contains "IBAN". -/
def exIbanListDoc : NodeList :=
  .cons (.elem "ul" []
    (.cons (.elem "li" [] (.cons (.text "IBAN DE12") .nil)) .nil)) .nil

/-- A course object with an empty description and a nonempty title. -/
def exEmptyCourse : JFields :=
  .cons "titel" (.str "X") (.cons "beschreibung" (.str "") .nil)

/-! ## Induction principles for the list-like members of the mutual inductives -/

theorem jfieldsInd {motive : JFields → Prop} (hnil : motive .nil)
    (hcons : ∀ k v t, motive t → motive (.cons k v t)) : ∀ d, motive d
  | .nil => hnil
  | .cons k v t => hcons k v t (jfieldsInd hnil hcons t)

theorem nlInd {motive : NodeList → Prop} (hnil : motive .nil)
    (hcons : ∀ n ns, motive ns → motive (.cons n ns)) : ∀ ns, motive ns
  | .nil => hnil
  | .cons n ns => hcons n ns (nlInd hnil hcons ns)

theorem jlistInd {motive : JList → Prop} (hnil : motive .nil)
    (hcons : ∀ v t, motive t → motive (.cons v t)) : ∀ l, motive l
  | .nil => hnil
  | .cons v t => hcons v t (jlistInd hnil hcons t)

/-! ## Whitespace-token lemmas -/

theorem tokensAux_append_ws (w : Char) (hw : isWsChar w = true) (ys : List Char) :
    ∀ (xs acc : List Char),
      tokensAux acc (xs ++ w :: ys) = tokensAux acc xs ++ tokensAux [] ys := by
  intro xs
  induction xs with
  | nil => intro acc; simp [tokensAux, hw]
  | cons c cs ih =>
    intro acc
    by_cases hc : isWsChar c
    · simp [tokensAux, hc, ih]
    · simp [tokensAux, hc, ih]

theorem tokens_space_append (a b : List Char) :
    tokens (a ++ ' ' :: b) = tokens a ++ tokens b :=
  tokensAux_append_ws ' ' rfl b a []

theorem tokensAux_nonWs :
    ∀ (t : List Char), (t.all fun c => !isWsChar c) = true →
      ∀ acc, tokensAux acc t = flushTok (t.reverse ++ acc) := by
  intro t
  induction t with
  | nil => intro _ acc; rfl
  | cons c cs ih =>
    intro h acc
    simp only [List.all_cons, Bool.and_eq_true, Bool.not_eq_true'] at h
    simp [tokensAux, h.1, ih (by simpa using h.2) (c :: acc), List.append_assoc]

theorem goodToks_flushTok (acc : List Char)
    (h : (acc.all fun c => !isWsChar c) = true) :
    goodToks (flushTok acc) = true := by
  cases acc with
  | nil => rfl
  | cons c cs =>
    show goodToks [(c :: cs).reverse] = true
    simp only [goodToks, List.all_cons, List.all_nil, Bool.and_true, goodTok,
      Bool.and_eq_true, Bool.not_eq_true']
    refine ⟨List.isEmpty_eq_false.mpr (by simp), ?_⟩
    rw [List.all_reverse]
    simpa using h

theorem tokens_single_good (t : List Char) (h : goodTok t = true) : tokens t = [t] := by
  have hg := h
  simp only [goodTok, Bool.and_eq_true, Bool.not_eq_true'] at h
  rw [tokens, tokensAux_nonWs t h.2 [], List.append_nil]
  cases t with
  | nil => simp [List.isEmpty] at h
  | cons c cs =>
    show flushTok ((c :: cs).reverse) = [(c :: cs)]
    unfold flushTok
    rw [List.isEmpty_eq_false.mpr (by simp)]
    simp

theorem tokens_sepJoin_good :
    ∀ (ts : List (List Char)), goodToks ts = true → tokens (sepJoin ts) = ts := by
  intro ts
  induction ts with
  | nil => intro _; rfl
  | cons t rest ih =>
    intro h
    simp only [goodToks, List.all_cons, Bool.and_eq_true] at h
    cases rest with
    | nil =>
      show tokens t = [t]
      exact tokens_single_good t h.1
    | cons r rs =>
      show tokens (t ++ ' ' :: sepJoin (r :: rs)) = t :: r :: rs
      rw [tokens_space_append, tokens_single_good t h.1]
      have := ih (by simp [goodToks]; exact (by simpa [goodToks] using h.2))
      rw [this]
      rfl

theorem goodToks_tokensAux :
    ∀ (cs acc : List Char), (acc.all fun c => !isWsChar c) = true →
      goodToks (tokensAux acc cs) = true := by
  intro cs
  induction cs with
  | nil =>
    intro acc h
    exact goodToks_flushTok acc h
  | cons c cs ih =>
    intro acc h
    by_cases hc : isWsChar c
    · simp only [tokensAux, hc, if_true]
      have h1 := ih [] rfl
      have h2 := goodToks_flushTok acc h
      simp only [goodToks, List.all_append, Bool.and_eq_true] at h1 h2 ⊢
      exact ⟨h2, h1⟩
    · simp only [tokensAux, hc, Bool.false_eq_true, if_false]
      refine ih (c :: acc) ?_
      simp only [List.all_cons, Bool.and_eq_true]
      exact ⟨by simp [hc], h⟩

theorem goodToks_tokens (cs : List Char) : goodToks (tokens cs) = true :=
  goodToks_tokensAux cs [] rfl

theorem normWs_idem (s : String) :
    normalizeWhitespace (normalizeWhitespace s) = normalizeWhitespace s := by
  show (⟨sepJoin (tokens (⟨sepJoin (tokens s.data)⟩ : String).data)⟩ : String) = _
  rw [show (⟨sepJoin (tokens s.data)⟩ : String).data = sepJoin (tokens s.data) from rfl,
    tokens_sepJoin_good _ (goodToks_tokens s.data)]
  rfl

theorem sepJoin_nil_iff :
    ∀ (ts : List (List Char)), goodToks ts = true → (sepJoin ts = [] ↔ ts = []) := by
  intro ts h
  cases ts with
  | nil => simp [sepJoin]
  | cons t rest =>
    simp only [goodToks, List.all_cons, Bool.and_eq_true, goodTok] at h
    constructor
    · intro he
      exfalso
      cases rest with
      | nil =>
        show False
        rw [show sepJoin [t] = t from rfl] at he
        rcases h with ⟨⟨hne, _⟩, _⟩
        rw [he] at hne
        simp at hne
      | cons r rs =>
        rw [show sepJoin (t :: r :: rs) = t ++ ' ' :: sepJoin (r :: rs) from rfl] at he
        cases t <;> simp at he
    · intro he
      cases he

theorem tokens_sepJoin_append (l1 l2 : List (List Char)) :
    tokens (sepJoin (l1 ++ l2)) = tokens (sepJoin l1) ++ tokens (sepJoin l2) := by
  induction l1 with
  | nil => rfl
  | cons x l1 ih =>
    cases l1 with
    | nil =>
      cases l2 with
      | nil => simp [sepJoin, tokens, tokensAux, flushTok]
      | cons y l2 =>
        show tokens (sepJoin (x :: y :: l2)) = tokens (sepJoin [x]) ++ tokens (sepJoin (y :: l2))
        rw [show sepJoin (x :: y :: l2) = x ++ ' ' :: sepJoin (y :: l2) from rfl,
          tokens_space_append]
        rfl
    | cons z l1' =>
      show tokens (sepJoin (x :: (z :: l1' ++ l2))) = _
      rw [show sepJoin (x :: (z :: l1' ++ l2)) = x ++ ' ' :: sepJoin (z :: l1' ++ l2) from rfl,
        tokens_space_append, ih,
        show sepJoin (x :: z :: l1') = x ++ ' ' :: sepJoin (z :: l1') from rfl,
        tokens_space_append, List.append_assoc]

theorem ntokensL_cons (n : Node) (ns : NodeList) :
    ntokensL (.cons n ns) = ntokensN n ++ ntokensL ns := by
  show tokens (sepJoin (((leavesN n ++ leavesL ns)).map String.data)) = _
  rw [List.map_append, tokens_sepJoin_append]
  rfl

theorem ntokensN_elem (t : String) (a : List (String × String)) (c : NodeList) :
    ntokensN (.elem t a c) = ntokensL c := rfl

theorem normText_eq_sepJoin (n : Node) : normText n = ⟨sepJoin (ntokensN n)⟩ := rfl

theorem normText_empty_iff (n : Node) : normText n = "" ↔ ntokensN n = [] := by
  rw [normText_eq_sepJoin]
  constructor
  · intro h
    have hd : sepJoin (ntokensN n) = [] := congrArg String.data h
    exact (sepJoin_nil_iff _ (goodToks_tokens _)).mp hd
  · intro h
    rw [h]
    rfl

theorem normText_congr {m n : Node} (h : ntokensN m = ntokensN n) :
    normText m = normText n := by
  rw [normText_eq_sepJoin, normText_eq_sepJoin, h]

/-! ## Dictionary lemmas -/

theorem dGet_dReplace_ne (d : JFields) (k k' : String) (v : JVal) (h : k' ≠ k) :
    dGet (dReplace d k v) k' = dGet d k' := by
  induction d using jfieldsInd with
  | hnil => rfl
  | hcons k0 v0 rest ih =>
    by_cases h0 : k0 = k
    · subst h0
      simp [dReplace, dGet, ih, Ne.symm h]
    · simp [dReplace, dGet, h0, ih]

theorem dGet_dAppend_ne (d : JFields) (k k' : String) (v : JVal) (h : k' ≠ k) :
    dGet (dAppend d k v) k' = dGet d k' := by
  induction d using jfieldsInd with
  | hnil => simp [dAppend, dGet]; intro hk; exact absurd hk.symm h
  | hcons k0 v0 rest ih => simp [dAppend, dGet, ih]

theorem dGet_dSet_ne (d : JFields) (k k' : String) (v : JVal) (h : k' ≠ k) :
    dGet (dSet d k v) k' = dGet d k' := by
  unfold dSet
  split
  · exact dGet_dReplace_ne d k k' v h
  · exact dGet_dAppend_ne d k k' v h

theorem dGet_dDel_ne (d : JFields) (k k' : String) (h : k' ≠ k) :
    dGet (dDel d k) k' = dGet d k' := by
  induction d using jfieldsInd with
  | hnil => rfl
  | hcons k0 v0 rest ih =>
    by_cases h0 : k0 = k
    · subst h0
      simp [dDel, dGet, ih, Ne.symm h]
    · simp [dDel, dGet, h0, ih]

theorem dGet_dReplace_self (d : JFields) (k : String) (v : JVal) (h : dHas d k = true) :
    dGet (dReplace d k v) k = some v := by
  induction d using jfieldsInd with
  | hnil => simp [dHas] at h
  | hcons k0 v0 rest ih =>
    by_cases h0 : k0 = k
    · subst h0; simp [dReplace, dGet]
    · simp [dHas, h0] at h
      simp [dReplace, dGet, h0, ih h]

theorem dGet_dAppend_self (d : JFields) (k : String) (v : JVal) (h : dHas d k = false) :
    dGet (dAppend d k v) k = some v := by
  induction d using jfieldsInd with
  | hnil => simp [dAppend, dGet]
  | hcons k0 v0 rest ih =>
    simp [dHas] at h
    simp [dAppend, dGet, h.1, ih h.2]

theorem dGet_dSet_self (d : JFields) (k : String) (v : JVal) :
    dGet (dSet d k v) k = some v := by
  unfold dSet
  split
  · exact dGet_dReplace_self d k v (by assumption)
  · exact dGet_dAppend_self d k v (by simpa using (by assumption : ¬ dHas d k = true))

theorem dGet_dFilterNotData_ne (d : JFields) (k : String) (h : k ≠ "data") :
    dGet (dFilterNotData d) k = dGet d k := by
  induction d using jfieldsInd with
  | hnil => rfl
  | hcons k0 v0 rest ih =>
    by_cases h0 : k0 = "data"
    · subst h0
      simp [dFilterNotData, dGet, ih, Ne.symm h]
    · simp [dFilterNotData, dGet, h0, ih]

/-! ## C10: `transform_payload` always returns an object with a `data` key -/

/-- C10: for a bare-array payload the output of `transform_payload` is the
object `{"data": processed courses}` (the return type `JFields` is an object;
the top-level output shape differs from the array input shape), and its
`data` field holds exactly the processed course list. -/
theorem transformPayload_array_shape (parse : String → NodeList) (items : JList) :
    transformPayload parse (.arr items) = .cons "data" (.arr (processList parse items)) .nil ∧
    dGet (transformPayload parse (.arr items)) "data" = some (.arr (processList parse items)) :=
  ⟨rfl, rfl⟩

/-! ## C9: frame of `process_course` and `transform_payload` -/

theorem processCourseDoc_frame (course : JFields) (doc : NodeList) (k : String)
    (h1 : k ≠ "beschreibung") (h2 : k ≠ "beschreibung_raw")
    (h3 : k ≠ "zeiten") (h4 : k ≠ "zeiten_html") :
    dGet (processCourseDoc course doc) k = dGet course k := by
  simp only [processCourseDoc]
  split
  · rw [dGet_dSet_ne _ _ _ _ h4]
    split
    · rw [dGet_dSet_ne _ _ _ _ h3, dGet_dSet_ne _ _ _ _ h1, dGet_dSet_ne _ _ _ _ h2]
    · rw [dGet_dSet_ne _ _ _ _ h3, dGet_dSet_ne _ _ _ _ h1, dGet_dSet_ne _ _ _ _ h2]
  · rw [dGet_dDel_ne _ _ _ h4]
    split
    · rw [dGet_dSet_ne _ _ _ _ h3, dGet_dSet_ne _ _ _ _ h1, dGet_dSet_ne _ _ _ _ h2]
    · rw [dGet_dSet_ne _ _ _ _ h3, dGet_dSet_ne _ _ _ _ h1, dGet_dSet_ne _ _ _ _ h2]

/-- C9: `process_course` works on a copy — in the returned course every key
other than `beschreibung`, `beschreibung_raw`, `zeiten`, `zeiten_html` keeps
its original value; and for an object payload `transform_payload` preserves
every top-level field other than `data` verbatim.  (Input immutability itself
is inherent in the pure embedding: all stages build new values.) -/
theorem processCourse_frame :
    (∀ (parse : String → NodeList) (course : JFields) (k : String),
      k ≠ "beschreibung" → k ≠ "beschreibung_raw" → k ≠ "zeiten" → k ≠ "zeiten_html" →
      dGet (processCourse parse course) k = dGet course k) ∧
    (∀ (parse : String → NodeList) (d : JFields) (k : String), k ≠ "data" →
      dGet (transformPayload parse (.obj d)) k = dGet d k) := by
  constructor
  · intro parse course k h1 h2 h3 h4
    exact processCourseDoc_frame course _ k h1 h2 h3 h4
  · intro parse d k h
    show dGet (dAppend (dFilterNotData d) "data" _) k = dGet d k
    rw [dGet_dAppend_ne _ _ _ _ h, dGet_dFilterNotData_ne _ _ h]

/-- Witness for C9 at a concrete course, payload and key. -/
theorem processCourse_frame_witness :
    dGet (processCourse (fun _ => .nil)
      (.cons "beschreibung" (.str "") (.cons "extra" (.num 7) .nil))) "extra"
      = some (.num 7) ∧
    dGet (transformPayload (fun _ => .nil) (.obj (.cons "meta" (.str "m") .nil))) "meta"
      = some (.str "m") :=
  ⟨processCourse_frame.1 (fun _ => .nil) _ "extra"
      (by decide) (by decide) (by decide) (by decide),
   processCourse_frame.2 (fun _ => .nil) _ "meta" (by decide)⟩

/-! ## C7: `ensure_title_block` -/

/-- C7 counterexample: for the empty title and the empty block sequence the
claim demands that a bold-paragraph block carrying the (normalized, empty)
title be prepended; `ensure_title_block` instead returns the sequence
unchanged. -/
theorem ensureTitle_empty_cex :
    ensureTitleBlock .nil "" = .nil ∧
    ensureTitleBlock .nil "" ≠ .cons (titleParagraph (normalizeWhitespace "")) .nil := by
  exact ⟨rfl, by decide⟩

/-- C7 amended: *provided the whitespace-normalized title is nonempty*, a
sequence whose first block's flattened text case-insensitively equals the
normalized title is returned unchanged, and otherwise the bold title
paragraph is prepended; an empty (or whitespace-only) title always returns
the sequence unchanged. -/
theorem ensureTitle_amended (title : String) (bs : NodeList) :
    (normalizeWhitespace title = "" → ensureTitleBlock bs title = bs) ∧
    (normalizeWhitespace title ≠ "" →
      headMatchesTitle bs (normalizeWhitespace title) = true →
      ensureTitleBlock bs title = bs) ∧
    (normalizeWhitespace title ≠ "" →
      headMatchesTitle bs (normalizeWhitespace title) = false →
      ensureTitleBlock bs title = .cons (titleParagraph (normalizeWhitespace title)) bs) := by
  refine ⟨?_, ?_, ?_⟩
  · intro h
    unfold ensureTitleBlock
    simp [h]
  · intro h hm
    unfold ensureTitleBlock
    cases bs with
    | nil => simp [headMatchesTitle] at hm
    | cons b rest =>
      simp only [headMatchesTitle] at hm
      simp [h, hm]
  · intro h hm
    unfold ensureTitleBlock
    cases bs with
    | nil => simp [h]
    | cons b rest =>
      simp only [headMatchesTitle] at hm
      simp [h, hm]

/-- Witness for C7 at a concrete title and sequence. -/
theorem ensureTitle_amended_witness :
    ensureTitleBlock .nil "T" = .cons (titleParagraph (normalizeWhitespace "T")) .nil :=
  (ensureTitle_amended "T" .nil).2.2 (by decide) (by decide)

/-! ## C8: span emphasis inference -/

/-- C8 counterexample: a span declaring `font-weight: 650` (numeric, ≥ 600)
is *not* converted to `strong` — the code only accepts the exact values
`bold`, `bolder`, `600`, `700`, `800`, `900`. -/
theorem convertSpan_650_cex :
    convertSpanFormatting "span" [("style", "font-weight: 650")] = ("span", []) ∧
    convertSpanFormatting "span" [("style", "font-weight: 650")] ≠ ("strong", []) := by
  exact ⟨by decide, by decide⟩

/-- C8 amended: a span whose style declares a font weight of exactly `bold`,
`bolder`, `600`, `700`, `800` or `900`, or whose class list contains a name
containing "bold", becomes `strong`; otherwise a font style of
`italic`/`oblique` or a class equal to `italic`/`kursiv` or containing
"italic" makes it `em`; the style and class attributes are stripped. -/
theorem convertSpan_amended (attrs : List (String × String)) :
    (isBoldHint attrs = true → (convertSpanFormatting "span" attrs).1 = "strong") ∧
    (isBoldHint attrs = false → isItalicHint attrs = true →
      (convertSpanFormatting "span" attrs).1 = "em") ∧
    (isBoldHint attrs = false → isItalicHint attrs = false →
      (convertSpanFormatting "span" attrs).1 = "span") ∧
    (convertSpanFormatting "span" attrs).2
      = attrs.filter (fun p => p.1 != "style" && p.1 != "class") := by
  have e : convertSpanFormatting "span" attrs =
      ((if isBoldHint attrs then "strong"
        else if isItalicHint attrs then "em" else "span"),
       attrs.filter fun p => p.1 != "style" && p.1 != "class") := rfl
  refine ⟨?_, ?_, ?_, ?_⟩
  · intro h; rw [e]; simp [h]
  · intro h h'; rw [e]; simp [h, h']
  · intro h h'; rw [e]; simp [h, h']
  · rw [e]

/-- Witness for C8 at concrete attribute lists. -/
theorem convertSpan_amended_witness :
    (convertSpanFormatting "span" [("style", "font-weight:700")]).1 = "strong" ∧
    (convertSpanFormatting "span" [("class", "kursiv")]).1 = "em" :=
  ⟨(convertSpan_amended [("style", "font-weight:700")]).1 (by decide),
   (convertSpan_amended [("class", "kursiv")]).2.1 (by decide) (by decide)⟩

/-! ## C6: stop-keyword truncation -/

theorem truncate_take (bs : NodeList) :
    truncateAfterStopKeywords bs = nlTake ((nlIdxOfStop bs).getD (nlLength bs)) bs := by
  induction bs using nlInd with
  | hnil => rfl
  | hcons b bs ih =>
    by_cases h : startsWithStopKeyword b
    · simp [truncateAfterStopKeywords, nlIdxOfStop, h, nlTake]
    · cases hidx : nlIdxOfStop bs with
      | none =>
        rw [hidx] at ih
        simp [truncateAfterStopKeywords, nlIdxOfStop, h, hidx, nlTake, nlLength, ih]
      | some i =>
        rw [hidx] at ih
        simp [truncateAfterStopKeywords, nlIdxOfStop, h, hidx, nlTake, ih]

/-- C6: walking the sequence surviving the boilerplate filter, the first block
whose lowered normalized text starts with a stop keyword, together with
everything after it, is discarded: the truncation keeps exactly the prefix
before the first stop block (the whole sequence when there is none). -/
theorem truncate_claim (bs : NodeList) :
    truncateAfterStopKeywords (filterAdminBlocks bs)
      = nlTake ((nlIdxOfStop (filterAdminBlocks bs)).getD (nlLength (filterAdminBlocks bs)))
          (filterAdminBlocks bs) :=
  truncate_take (filterAdminBlocks bs)

/-! ## Substring lemmas -/

theorem hasPre_refl (cs : List Char) : hasPre cs cs = true := by
  induction cs with
  | nil => rfl
  | cons c cs ih => simp [hasPre, ih]

theorem hasPre_append (p t : List Char) : hasPre p (p ++ t) = true := by
  induction p with
  | nil => rfl
  | cons c cs ih => simp [hasPre, ih]

theorem containsSubChars_of_hasPre {n s : List Char} (h : hasPre n s = true) :
    containsSubChars n s = true := by
  cases s with
  | nil =>
    cases n with
    | nil => rfl
    | cons c cs => simp [hasPre] at h
  | cons c cs => simp [containsSubChars, h]

theorem containsSubChars_append_r (n s t : List Char) (h : containsSubChars n t = true) :
    containsSubChars n (s ++ t) = true := by
  induction s with
  | nil => simpa using h
  | cons c cs ih => simp [containsSubChars, ih]

theorem containsSub_append_right (s t x : String) (h : containsSub t x = true) :
    containsSub (s ++ t) x = true := by
  unfold containsSub at *
  rw [String.data_append]
  exact containsSubChars_append_r _ _ _ h

theorem containsSub_self_append (x t : String) : containsSub (x ++ t) x = true := by
  unfold containsSub
  rw [String.data_append]
  exact containsSubChars_of_hasPre (hasPre_append _ _)

theorem containsSub_self (x : String) : containsSub x x = true :=
  containsSubChars_of_hasPre (hasPre_refl _)

theorem containsSub_empty_hay {x : String} (h : containsSub "" x = true) : x = "" := by
  unfold containsSub at h
  simp only [containsSubChars] at h
  cases x with
  | mk d =>
    cases d with
    | nil => rfl
    | cons c cs => simp [List.isEmpty] at h

theorem containsSub_joinWith (sep : String) (l : List String) (x : String) (h : x ∈ l) :
    containsSub (joinWith sep l) x = true := by
  induction l with
  | nil => cases h
  | cons y ys ih =>
    cases ys with
    | nil =>
      rcases List.mem_singleton.mp h with rfl
      exact containsSub_self x
    | cons z zs =>
      rcases List.mem_cons.mp h with rfl | h'
      · show containsSub (x ++ sep ++ joinWith sep (z :: zs)) x = true
        rw [String.append_assoc]
        exact containsSub_self_append _ _
      · show containsSub (y ++ sep ++ joinWith sep (z :: zs)) x = true
        exact containsSub_append_right _ _ _ (ih h')

/-! ## C5: location suppression in the schedule renderings -/

/-- C5 counterexample: the two locations agree under the case-insensitive
comparison the claim describes (their lowered normalized forms coincide), yet
`build_times_detail_text` *includes* the location — `normalise_location` never
folds case, so the code's comparison is case-sensitive. -/
theorem location_case_cex :
    normaliseLocation (lowerStr "VHS LAHNSTEIN") = normaliseLocation "vhs lahnstein" ∧
    buildTimesDetailText
        { date := "12.03.2025", time := "18:00", location := "VHS LAHNSTEIN" }
        "vhs lahnstein"
      = "- 12.03.2025 · 18:00 · VHS LAHNSTEIN" := by
  exact ⟨by decide, by decide⟩

theorem statusClasses_ne_location (s : String) :
    (statusClasses s == "vhs-times-location") = false := by
  simp only [statusClasses]
  split
  · rfl
  · split <;> rfl

theorem nlHasLocSpan_nlOf_append (xs ys : List Node) :
    nlHasLocSpan (nlOf (xs ++ ys)) = (nlHasLocSpan (nlOf xs) || nlHasLocSpan (nlOf ys)) := by
  induction xs with
  | nil => simp [nlOf, nlHasLocSpan]
  | cons n ns ih =>
    cases n with
    | text s => simp [nlOf, nlHasLocSpan, ih]
    | elem t a c => simp [nlOf, nlHasLocSpan, ih, Bool.or_assoc]

/-- The schedule list item carries a location span exactly under the code's
inclusion condition. -/
theorem hasLocSpan_timesListItem (d : DetailItem) (cl : String) :
    hasLocSpan (timesListItem d cl)
      = (d.location != "" && normaliseLocation d.location != normaliseLocation cl) := by
  simp only [timesListItem, hasLocSpan]
  rw [nlHasLocSpan_nlOf_append, nlHasLocSpan_nlOf_append, nlHasLocSpan_nlOf_append]
  have h1 : nlHasLocSpan (nlOf (if d.date == "" then []
      else [.elem "span" [("class", "vhs-times-date")] (.cons (.text d.date) .nil)]))
      = false := by
    split <;> rfl
  have h2 : nlHasLocSpan (nlOf (if d.time == "" then []
      else [.elem "span" [("class", "vhs-times-time")] (.cons (.text d.time) .nil)]))
      = false := by
    split <;> rfl
  have h4 : nlHasLocSpan (nlOf (if d.status == "" then []
      else [.elem "span" [("class", statusClasses d.status)]
              (.cons (.text d.status) .nil)])) = false := by
    split
    · rfl
    · have h := statusClasses_ne_location d.status
      simp [nlOf, nlHasLocSpan, getAttr]
      simpa using h
  have h3 : nlHasLocSpan (nlOf
      (if (d.location != "" && normaliseLocation d.location != normaliseLocation cl)
       then [Node.elem "span" [("class", "vhs-times-location")]
               (.cons (.text d.location) .nil)]
       else []))
      = (d.location != "" && normaliseLocation d.location != normaliseLocation cl) := by
    by_cases hc : (d.location != ""
        && normaliseLocation d.location != normaliseLocation cl) = true
    · rw [hc]
      simp only [if_true]
      rfl
    · have hc' : (d.location != ""
          && normaliseLocation d.location != normaliseLocation cl) = false := by
        simpa using hc
      rw [hc']
      simp only [Bool.false_eq_true, if_false]
      rfl
  rw [h1, h2, h3, h4]
  simp

theorem buildTimes_contains_of_mem (x : String) (hx : x ≠ "") (l : List String)
    (h : x ∈ l) :
    containsSub (if joinWith " · " l == "" then "" else "- " ++ joinWith " · " l) x
      = true := by
  have hctn := containsSub_joinWith " · " l x h
  by_cases hc : joinWith " · " l = ""
  · rw [hc] at hctn
    exact absurd (containsSub_empty_hay hctn) hx
  · have hb : (joinWith " · " l == "") = false := by simp [hc]
    simp only [hb, Bool.false_eq_true, if_false]
    exact containsSub_append_right "- " _ _ hctn

/-- C5 amended: in both the text and the HTML detail rendering, a detail
item's location is omitted exactly when it equals the course's location under
a comparison insensitive to whitespace runs and trailing periods/spaces —
but *case-sensitively*: when the normalized forms agree the location fragment
and the location span are absent, and when the item carries a location whose
normalized form differs (even only in letter case) it is included. -/
theorem location_suppression (item : DetailItem) (cl : String) :
    (normaliseLocation item.location = normaliseLocation cl →
      buildTimesDetailText item cl = buildTimesDetailText { item with location := "" } cl ∧
      hasLocSpan (timesListItem item cl) = false) ∧
    (item.location ≠ "" → normaliseLocation item.location ≠ normaliseLocation cl →
      containsSub (buildTimesDetailText item cl) item.location = true ∧
      hasLocSpan (timesListItem item cl) = true) := by
  constructor
  · intro hm
    have hcond : (item.location != ""
        && normaliseLocation item.location != normaliseLocation cl) = false := by
      simp [hm]
    constructor
    · unfold buildTimesDetailText
      simp [hcond, hm]
    · rw [hasLocSpan_timesListItem, hcond]
  · intro hl hm
    have hcond : (item.location != ""
        && normaliseLocation item.location != normaliseLocation cl) = true := by
      simp [hl, hm]
    constructor
    · have hmem : item.location ∈
          ((if item.date == "" then [] else [item.date])
            ++ (if item.time == "" then [] else [item.time])
            ++ (if (item.location != ""
                  && normaliseLocation item.location != normaliseLocation cl)
                then [item.location] else [])
            ++ (if item.status == "" then [] else [item.status])) := by
        simp [hcond]
      exact buildTimes_contains_of_mem item.location hl _ hmem
    · rw [hasLocSpan_timesListItem, hcond]

/-- Witness for C5 at concrete items and course locations. -/
theorem location_suppression_witness :
    (buildTimesDetailText { date := "12.03.2025", location := "VHS Lahnstein." } "VHS  Lahnstein"
      = buildTimesDetailText { date := "12.03.2025", location := "" } "VHS  Lahnstein") ∧
    containsSub
      (buildTimesDetailText { date := "12.03.2025", location := "Raum 2" } "VHS Lahnstein")
      "Raum 2" = true :=
  ⟨((location_suppression { date := "12.03.2025", location := "VHS Lahnstein." }
      "VHS  Lahnstein").1 (by decide)).1,
   ((location_suppression { date := "12.03.2025", location := "Raum 2" }
      "VHS Lahnstein").2 (by decide) (by decide)).1⟩

/-! ## C3: always-match administrative keywords -/

theorem isAdmin_eq (b : Node) (t : String) :
    isAdminBlock b t
      = (if t == "" then false
         else if exemptListTag b then false
         else if adminAlwaysKeywords.any (fun k => containsSub (lowerStr t) k) then true
         else adminStartKeywords.any fun k =>
           strStarts (normalizeWhitespace (lowerStr t)) k) := by
  cases b <;> rfl

theorem isAdmin_false_no_keyword (b : Node) (h : isAdminBlock b (normText b) = false) :
    (exemptListTag b || !(hasAlwaysKeyword b)) = true := by
  rw [isAdmin_eq] at h
  by_cases he : exemptListTag b = true
  · simp [he]
  · simp only [he, Bool.or_false, Bool.false_eq_true, if_false] at h ⊢
    by_cases ht : (normText b == "") = true
    · have ht' : normText b = "" := by simpa using ht
      simp [hasAlwaysKeyword, ht']
      decide
    · simp only [ht, if_false] at h
      by_cases ha : adminAlwaysKeywords.any (fun k => containsSub (lowerStr (normText b)) k) = true
      · simp [ha] at h
      · simp [hasAlwaysKeyword]
        simpa using ha

theorem filterAdminAux_always (last : Option String) (bs : NodeList) :
    nlAll (fun b => exemptListTag b || !(hasAlwaysKeyword b)) (filterAdminAux last bs)
      = true := by
  induction bs using nlInd generalizing last with
  | hnil => rfl
  | hcons b bs ih =>
    simp only [filterAdminAux]
    by_cases h1 : (normText b == "") = true
    · simp only [h1, if_true]
      exact ih last
    · simp only [h1, Bool.false_eq_true, if_false]
      by_cases h2 : isAdminBlock b (normText b) = true
      · simp only [h2, if_true]
        exact ih last
      · have h2' : isAdminBlock b (normText b) = false := by simpa using h2
        simp only [h2', Bool.false_eq_true, if_false]
        by_cases h3 : (last == some (normText b)) = true
        · simp only [h3, if_true]
          exact ih last
        · simp only [h3, Bool.false_eq_true, if_false, nlAll]
          rw [isAdmin_false_no_keyword b h2', ih (some (normText b))]
          rfl

/-- C3 counterexample: a list block whose text contains "IBAN" is *kept* by
the boilerplate filter (`is_admin_block` exempts `ul`/`ol`/`li`/`table`
blocks) and reaches the output description verbatim — refuting "regardless of
the block's tag". -/
theorem ibanList_cex :
    extractDescription exIbanListDoc "" = "<ul><li>IBAN DE12</li></ul>" ∧
    containsSub (lowerStr (extractDescription exIbanListDoc "")) "iban" = true := by
  exact ⟨by decide, by decide⟩

/-- C3 amended: every block surviving the boilerplate filter either carries
one of the exempt list/table tags (`ul`, `ol`, `li`, `table`) or its lowered
flattened text contains none of the always-match keywords (`iban`, `bic`,
`bankverbindung`, `name der bank`, `kontoinhaber`); blocks with any other tag
containing such a keyword are dropped regardless of position. -/
theorem filterAdmin_always_claim (bs : NodeList) :
    nlAll (fun b => exemptListTag b || !(hasAlwaysKeyword b)) (filterAdminBlocks bs)
      = true :=
  filterAdminAux_always none bs

/-! ## C4: empty `beschreibung` input -/

theorem dropWsLead_of_head {l : List Char} {c : Char} (h : l.head? = some c)
    (hc : isWsChar c = false) : dropWsLead l = l := by
  cases l with
  | nil => rfl
  | cons x xs =>
    have hx : x = c := by simpa using h
    subst hx
    simp [dropWsLead, hc]

theorem stripStr_lt_gt (s : String) (h1 : s.data.head? = some '<')
    (h2 : s.data.getLast? = some '>') : stripStr s = s := by
  have hr : s.data.reverse.head? = some '>' := by rw [List.head?_reverse]; exact h2
  unfold stripStr stripChars
  rw [dropWsLead_of_head hr (by decide), List.reverse_reverse,
    dropWsLead_of_head h1 (by decide)]

theorem renderN_titleParagraph (nt : String) :
    renderN (titleParagraph nt) = "<p><strong>" ++ escText nt ++ "</strong></p>" := by
  have hb1 : (("p" : String) == "br") = false := by decide
  have hb2 : (("strong" : String) == "br") = false := by decide
  apply String.ext
  simp [renderN, renderL, renderAttrsStr, titleParagraph, hb1, hb2, String.data_append]

theorem blocksToString_title (nt : String) :
    blocksToString (.cons (titleParagraph nt) .nil)
      = "<p><strong>" ++ escText nt ++ "</strong></p>" := by
  have h : blocksToString (.cons (titleParagraph nt) .nil)
      = stripStr (renderN (titleParagraph nt)) := rfl
  rw [h, renderN_titleParagraph]
  apply stripStr_lt_gt
  · rw [String.data_append, String.data_append]
    rfl
  · rw [String.data_append, String.data_append, ← List.head?_reverse, List.reverse_append]
    rfl

/-- On the empty document the description pipeline yields nothing but the
bold title paragraph (or the empty string for an empty title). -/
theorem extractDescription_nil (t : String) :
    extractDescription .nil t
      = (if normalizeWhitespace t = "" then ""
         else "<p><strong>" ++ escText (normalizeWhitespace t) ++ "</strong></p>") := by
  have h0 : extractDescription .nil t = blocksToString (ensureTitleBlock .nil t) := rfl
  rw [h0]
  by_cases h : normalizeWhitespace t = ""
  · simp [ensureTitleBlock, h, blocksToString]
  · have hb : (normalizeWhitespace t == "") = false := by simp [h]
    have he : ensureTitleBlock .nil t
        = .cons (titleParagraph (normalizeWhitespace t)) .nil := by
      simp only [ensureTitleBlock, hb, Bool.false_eq_true, if_false]
    rw [he, blocksToString_title]
    simp [h]

theorem processCourseDoc_nil_desc (course : JFields) :
    dGet (processCourseDoc course .nil) "beschreibung"
      = some (.str (extractDescription .nil (strOrEmpty (dGet course "titel")))) ∧
    dGet (processCourseDoc course .nil) "beschreibung_raw"
      = some (.str (strOrEmpty (dGet course "beschreibung"))) := by
  have ht : extractTimes .nil (strOpt (dGet course "ort")) = ("", "", .nil) := rfl
  simp only [processCourseDoc, ht]
  simp only [bne_self_eq_false, Bool.false_eq_true, if_false]
  constructor
  · rw [dGet_dDel_ne _ _ _ (by decide), dGet_dSet_ne _ _ _ _ (by decide), dGet_dSet_self]
  · rw [dGet_dDel_ne _ _ _ (by decide), dGet_dSet_ne _ _ _ _ (by decide),
      dGet_dSet_ne _ _ _ _ (by decide), dGet_dSet_self]

/-- C4 counterexample: a course with `beschreibung = ""` and a nonempty
`titel` produces the bold title paragraph as its output `beschreibung`, not
the empty string the claim demands. -/
theorem emptyDescription_cex :
    dGet exEmptyCourse "beschreibung" = some (.str "") ∧
    dGet (processCourse (fun _ => .nil) exEmptyCourse) "beschreibung"
      = some (.str "<p><strong>X</strong></p>") ∧
    some (JVal.str "<p><strong>X</strong></p>") ≠ some (JVal.str "") := by
  exact ⟨by decide, by decide, by decide⟩

/-- C4 amended: on an empty `beschreibung` input, `process_course` (a total
function in this embedding — no exception) outputs `beschreibung_raw = ""`,
and `beschreibung` is the empty string exactly when the course's normalized
`titel` is empty — otherwise it is the single bold title paragraph that
`ensure_title_block` prepends. -/
theorem processCourse_empty_description (parse : String → NodeList) (course : JFields)
    (h : dGet course "beschreibung" = some (.str "")) :
    dGet (processCourse parse course) "beschreibung_raw" = some (.str "") ∧
    dGet (processCourse parse course) "beschreibung"
      = some (.str
          (if normalizeWhitespace (strOrEmpty (dGet course "titel")) = "" then ""
           else "<p><strong>"
             ++ escText (normalizeWhitespace (strOrEmpty (dGet course "titel")))
             ++ "</strong></p>")) := by
  have hraw : strOrEmpty (dGet course "beschreibung") = "" := by rw [h]; rfl
  have hpc : processCourse parse course = processCourseDoc course .nil := by
    simp only [processCourse, hraw]
    rfl
  rw [hpc]
  refine ⟨?_, ?_⟩
  · rw [(processCourseDoc_nil_desc course).2, hraw]
  · rw [(processCourseDoc_nil_desc course).1, extractDescription_nil]

/-- Witness for C4 at a concrete course. -/
theorem processCourse_empty_description_witness :
    dGet (processCourse (fun _ => .nil) exEmptyCourse) "beschreibung_raw"
      = some (.str "") ∧
    dGet (processCourse (fun _ => .nil) exEmptyCourse) "beschreibung"
      = some (.str
          (if normalizeWhitespace (strOrEmpty (dGet exEmptyCourse "titel")) = "" then ""
           else "<p><strong>"
             ++ escText (normalizeWhitespace (strOrEmpty (dGet exEmptyCourse "titel")))
             ++ "</strong></p>")) :=
  processCourse_empty_description (fun _ => .nil) exEmptyCourse (by decide)

/-! ## Leaves preservation through the sanitizer phases -/

theorem leavesL_nlApp (a b : NodeList) : leavesL (nlApp a b) = leavesL a ++ leavesL b := by
  induction a using nlInd with
  | hnil => rfl
  | hcons n ns ih => simp [nlApp, leavesL, ih]

mutual
theorem leaves_sanitizeN : ∀ n, leavesL (sanitizeN n) = leavesN n
  | .text s => rfl
  | .elem t a c => by
    simp only [sanitizeN]
    split
    · simp [leavesL, leavesN, leaves_sanitizeL c]
    · rw [leaves_sanitizeL c]
      rfl
theorem leaves_sanitizeL : ∀ ns, leavesL (sanitizeL ns) = leavesL ns
  | .nil => rfl
  | .cons n ns => by
    simp only [sanitizeL]
    rw [leavesL_nlApp, leaves_sanitizeN n, leaves_sanitizeL ns]
    rfl
end

mutual
theorem leaves_uwN : ∀ n, leavesL (uwN n) = leavesN n
  | .text s => rfl
  | .elem t a c => by
    simp only [uwN]
    split
    · rw [leaves_uwL c]
      rfl
    · simp [leavesL, leavesN, leaves_uwL c]
theorem leaves_uwL : ∀ ns, leavesL (uwL ns) = leavesL ns
  | .nil => rfl
  | .cons n ns => by
    simp only [uwL]
    rw [leavesL_nlApp, leaves_uwN n, leaves_uwL ns]
    rfl
end

theorem leaves_groupLiAux :
    ∀ (ns run : NodeList), leavesL (groupLiAux run ns) = leavesL run ++ leavesL ns := by
  intro ns
  induction ns using nlInd with
  | hnil =>
    intro run
    cases run with
    | nil => rfl
    | cons m ms => simp [groupLiAux, flushRun, leavesL, leavesN]
  | hcons n ns ih =>
    intro run
    by_cases h : isLiElem n
    · simp only [groupLiAux, h, if_true]
      rw [ih (nlApp run (.cons n .nil)), leavesL_nlApp]
      simp [leavesL, List.append_assoc]
    · simp only [groupLiAux, h, Bool.false_eq_true, if_false]
      cases run with
      | nil =>
        simp [flushRun, leavesL, ih .nil]
      | cons m ms =>
        simp [flushRun, leavesL, leavesN, ih .nil, List.append_assoc]

theorem leaves_groupLi (ns : NodeList) : leavesL (groupLi ns) = leavesL ns := by
  rw [groupLi, leaves_groupLiAux]
  rfl

mutual
theorem leaves_noliN : ∀ n, leavesN (noliN n) = leavesN n
  | .text s => rfl
  | .elem t a c => by
    simp only [noliN]
    split
    · rw [show leavesN (.elem t a (noliL c)) = leavesL (noliL c) from rfl, leaves_noliL c]
      rfl
    · rw [show leavesN (.elem t a (groupLi (noliL c))) = leavesL (groupLi (noliL c)) from rfl,
        leaves_groupLi, leaves_noliL c]
      rfl
theorem leaves_noliL : ∀ ns, leavesL (noliL ns) = leavesL ns
  | .nil => rfl
  | .cons n ns => by
    simp only [noliL]
    rw [show leavesL (.cons (noliN n) (noliL ns)) = leavesN (noliN n) ++ leavesL (noliL ns)
        from rfl, leaves_noliN n, leaves_noliL ns]
    rfl
end

mutual
theorem leaves_pruneN : ∀ n, (match pruneN n with
    | some m => List.Sublist (leavesN m) (leavesN n)
    | none => True)
  | .text s => List.Sublist.refl _
  | .elem t a c => by
    by_cases hbr : (t == "br") = true
    · have hp : pruneN (.elem t a c) = some (.elem t a (pruneL c)) := by
        simp [pruneN, hbr]
      simp only [hp]
      exact leaves_pruneL c
    · by_cases hemp : (normText (.elem t a c) == "") = true
      · have hp : pruneN (.elem t a c) = none := by simp [pruneN, hbr, hemp]
        simp only [hp]
      · have hp : pruneN (.elem t a c) = some (.elem t a (pruneL c)) := by
          simp [pruneN, hbr, hemp]
        simp only [hp]
        exact leaves_pruneL c
theorem leaves_pruneL : ∀ ns, List.Sublist (leavesL (pruneL ns)) (leavesL ns)
  | .nil => List.Sublist.refl _
  | .cons n ns => by
    have hn := leaves_pruneN n
    simp only [pruneL]
    cases hp : pruneN n with
    | none =>
      exact (leaves_pruneL ns).trans (List.sublist_append_right _ _)
    | some m =>
      rw [hp] at hn
      simp only at hn
      exact List.Sublist.append hn (leaves_pruneL ns)
end

/-! ## Token preservation and the empty-pruning invariant -/

theorem ntokensL_sanitizeL (ns : NodeList) : ntokensL (sanitizeL ns) = ntokensL ns := by
  unfold ntokensL docText
  rw [leaves_sanitizeL]

theorem ntokensL_uwL (ns : NodeList) : ntokensL (uwL ns) = ntokensL ns := by
  unfold ntokensL docText
  rw [leaves_uwL]

theorem ntokensL_noliL (ns : NodeList) : ntokensL (noliL ns) = ntokensL ns := by
  unfold ntokensL docText
  rw [leaves_noliL]

theorem ntokensL_groupLi (ns : NodeList) : ntokensL (groupLi ns) = ntokensL ns := by
  unfold ntokensL docText
  rw [leaves_groupLi]

mutual
theorem ntokens_pruneN : ∀ n, (match pruneN n with
    | some m => ntokensN m = ntokensN n
    | none => ntokensN n = [])
  | .text s => rfl
  | .elem t a c => by
    by_cases hbr : (t == "br") = true
    · have hp : pruneN (.elem t a c) = some (.elem t a (pruneL c)) := by
        simp [pruneN, hbr]
      simp only [hp]
      rw [ntokensN_elem, ntokensN_elem, ntokens_pruneL c]
    · by_cases hemp : (normText (.elem t a c) == "") = true
      · have hp : pruneN (.elem t a c) = none := by simp [pruneN, hbr, hemp]
        simp only [hp]
        exact (normText_empty_iff _).mp (by simpa using hemp)
      · have hp : pruneN (.elem t a c) = some (.elem t a (pruneL c)) := by
          simp [pruneN, hbr, hemp]
        simp only [hp]
        rw [ntokensN_elem, ntokensN_elem, ntokens_pruneL c]
theorem ntokens_pruneL : ∀ ns, ntokensL (pruneL ns) = ntokensL ns
  | .nil => rfl
  | .cons n ns => by
    have hn := ntokens_pruneN n
    simp only [pruneL]
    cases hp : pruneN n with
    | none =>
      rw [hp] at hn
      simp only at hn
      rw [ntokensL_cons, hn, List.nil_append]
      exact ntokens_pruneL ns
    | some m =>
      rw [hp] at hn
      simp only at hn
      rw [ntokensL_cons, ntokensL_cons, hn, ntokens_pruneL ns]
end

mutual
theorem neText_pruneN : ∀ n, (match pruneN n with
    | some m => neTextN m = true
    | none => True)
  | .text s => rfl
  | .elem t a c => by
    by_cases hbr : (t == "br") = true
    · have hp : pruneN (.elem t a c) = some (.elem t a (pruneL c)) := by
        simp [pruneN, hbr]
      simp only [hp]
      simp only [neTextN, Bool.and_eq_true, Bool.or_eq_true]
      exact ⟨Or.inl hbr, neText_pruneL c⟩
    · by_cases hemp : (normText (.elem t a c) == "") = true
      · have hp : pruneN (.elem t a c) = none := by simp [pruneN, hbr, hemp]
        simp only [hp]
      · have hp : pruneN (.elem t a c) = some (.elem t a (pruneL c)) := by
          simp [pruneN, hbr, hemp]
        simp only [hp]
        simp only [neTextN, Bool.and_eq_true, Bool.or_eq_true]
        refine ⟨Or.inr ?_, neText_pruneL c⟩
        have htext : normText (.elem t a (pruneL c)) = normText (.elem t a c) :=
          normText_congr (by rw [ntokensN_elem, ntokensN_elem, ntokens_pruneL c])
        rw [htext]
        simpa using hemp
theorem neText_pruneL : ∀ ns, neTextL (pruneL ns) = true
  | .nil => rfl
  | .cons n ns => by
    have hn := neText_pruneN n
    simp only [pruneL]
    cases hp : pruneN n with
    | none => exact neText_pruneL ns
    | some m =>
      rw [hp] at hn
      simp only at hn
      simp only [neTextL, Bool.and_eq_true]
      exact ⟨hn, neText_pruneL ns⟩
end

/-! ## Generic element-predicate lemmas for the sanitizer phases -/

theorem allElemsL_nlApp (q : String → List (String × String) → Bool) (a b : NodeList) :
    allElemsL q (nlApp a b) = (allElemsL q a && allElemsL q b) := by
  induction a using nlInd with
  | hnil => rfl
  | hcons n ns ih => simp [nlApp, allElemsL, ih, Bool.and_assoc]

mutual
theorem allElems_sanitizeN (q : String → List (String × String) → Bool)
    (hsan : ∀ t a, memStr (convertSpanFormatting t a).1 allowedTags = true →
      q (convertSpanFormatting t a).1
        (sanitizeAttrs (convertSpanFormatting t a).1 (convertSpanFormatting t a).2) = true) :
    ∀ n, allElemsL q (sanitizeN n) = true
  | .text _ => rfl
  | .elem t a c => by
    simp only [sanitizeN]
    split
    · rename_i hmem
      simp [allElemsL, allElemsN, hsan t a hmem, allElems_sanitizeL q hsan c]
    · exact allElems_sanitizeL q hsan c
theorem allElems_sanitizeL (q : String → List (String × String) → Bool)
    (hsan : ∀ t a, memStr (convertSpanFormatting t a).1 allowedTags = true →
      q (convertSpanFormatting t a).1
        (sanitizeAttrs (convertSpanFormatting t a).1 (convertSpanFormatting t a).2) = true) :
    ∀ ns, allElemsL q (sanitizeL ns) = true
  | .nil => rfl
  | .cons n ns => by
    simp only [sanitizeL]
    rw [allElemsL_nlApp, allElems_sanitizeN q hsan n, allElems_sanitizeL q hsan ns]
    rfl
end

mutual
theorem allElems_uwN (q : String → List (String × String) → Bool) :
    ∀ n, allElemsN q n = true → allElemsL q (uwN n) = true
  | .text _ => fun _ => rfl
  | .elem t a c => fun h => by
    simp only [allElemsN, Bool.and_eq_true] at h
    simp only [uwN]
    split
    · exact allElems_uwL q c h.2
    · simp [allElemsL, allElemsN, h.1, allElems_uwL q c h.2]
theorem allElems_uwL (q : String → List (String × String) → Bool) :
    ∀ ns, allElemsL q ns = true → allElemsL q (uwL ns) = true
  | .nil => fun _ => rfl
  | .cons n ns => fun h => by
    simp only [allElemsL, Bool.and_eq_true] at h
    simp only [uwL]
    rw [allElemsL_nlApp, allElems_uwN q n h.1, allElems_uwL q ns h.2]
    rfl
end

theorem allElems_flushRun (q : String → List (String × String) → Bool)
    (hul : q "ul" [] = true) (run rest : NodeList)
    (h1 : allElemsL q run = true) (h2 : allElemsL q rest = true) :
    allElemsL q (flushRun run rest) = true := by
  cases run with
  | nil => exact h2
  | cons m ms =>
    simp only [flushRun, allElemsL, allElemsN, Bool.and_eq_true]
    exact ⟨⟨hul, by simpa [allElemsL] using h1⟩, h2⟩

theorem allElems_groupLiAux (q : String → List (String × String) → Bool)
    (hul : q "ul" [] = true) :
    ∀ (ns run : NodeList), allElemsL q run = true → allElemsL q ns = true →
      allElemsL q (groupLiAux run ns) = true := by
  intro ns
  induction ns using nlInd with
  | hnil =>
    intro run h1 _
    exact allElems_flushRun q hul run .nil h1 rfl
  | hcons n ns ih =>
    intro run h1 h2
    simp only [allElemsL, Bool.and_eq_true] at h2
    by_cases hli : isLiElem n
    · simp only [groupLiAux, hli, if_true]
      refine ih (nlApp run (.cons n .nil)) ?_ h2.2
      rw [allElemsL_nlApp]
      simp [h1, allElemsL, h2.1]
    · simp only [groupLiAux, hli, Bool.false_eq_true, if_false]
      refine allElems_flushRun q hul run _ h1 ?_
      simp only [allElemsL, Bool.and_eq_true]
      exact ⟨h2.1, ih .nil rfl h2.2⟩

theorem allElems_groupLi (q : String → List (String × String) → Bool)
    (hul : q "ul" [] = true) (ns : NodeList) (h : allElemsL q ns = true) :
    allElemsL q (groupLi ns) = true :=
  allElems_groupLiAux q hul ns .nil rfl h

mutual
theorem allElems_noliN (q : String → List (String × String) → Bool)
    (hul : q "ul" [] = true) :
    ∀ n, allElemsN q n = true → allElemsN q (noliN n) = true
  | .text _ => fun _ => rfl
  | .elem t a c => fun h => by
    simp only [allElemsN, Bool.and_eq_true] at h
    simp only [noliN]
    split
    · simp only [allElemsN, Bool.and_eq_true]
      exact ⟨h.1, allElems_noliL q hul c h.2⟩
    · simp only [allElemsN, Bool.and_eq_true]
      exact ⟨h.1, allElems_groupLi q hul _ (allElems_noliL q hul c h.2)⟩
theorem allElems_noliL (q : String → List (String × String) → Bool)
    (hul : q "ul" [] = true) :
    ∀ ns, allElemsL q ns = true → allElemsL q (noliL ns) = true
  | .nil => fun _ => rfl
  | .cons n ns => fun h => by
    simp only [allElemsL, Bool.and_eq_true] at h ⊢
    exact ⟨allElems_noliN q hul n h.1, allElems_noliL q hul ns h.2⟩
end

mutual
theorem allElems_pruneN (q : String → List (String × String) → Bool) :
    ∀ n, allElemsN q n = true →
      (match pruneN n with | some m => allElemsN q m = true | none => True)
  | .text _ => fun _ => rfl
  | .elem t a c => fun h => by
    simp only [allElemsN, Bool.and_eq_true] at h
    by_cases hbr : (t == "br") = true
    · have hp : pruneN (.elem t a c) = some (.elem t a (pruneL c)) := by
        simp [pruneN, hbr]
      simp only [hp]
      simp only [allElemsN, Bool.and_eq_true]
      exact ⟨h.1, allElems_pruneL q c h.2⟩
    · by_cases hemp : (normText (.elem t a c) == "") = true
      · have hp : pruneN (.elem t a c) = none := by simp [pruneN, hbr, hemp]
        simp only [hp]
      · have hp : pruneN (.elem t a c) = some (.elem t a (pruneL c)) := by
          simp [pruneN, hbr, hemp]
        simp only [hp]
        simp only [allElemsN, Bool.and_eq_true]
        exact ⟨h.1, allElems_pruneL q c h.2⟩
theorem allElems_pruneL (q : String → List (String × String) → Bool) :
    ∀ ns, allElemsL q ns = true → allElemsL q (pruneL ns) = true
  | .nil => fun _ => rfl
  | .cons n ns => fun h => by
    simp only [allElemsL, Bool.and_eq_true] at h
    have hn := allElems_pruneN q n h.1
    simp only [pruneL]
    cases hp : pruneN n with
    | none => exact allElems_pruneL q ns h.2
    | some m =>
      rw [hp] at hn
      simp only at hn
      simp only [allElemsL, Bool.and_eq_true]
      exact ⟨hn, allElems_pruneL q ns h.2⟩
end

theorem allElems_collect (q : String → List (String × String) → Bool)
    (hp : q "p" [] = true) :
    ∀ ns, allElemsL q ns = true → allElemsL q (collectBlocks ns) = true
  | .nil => fun _ => rfl
  | .cons (.text s) ns => fun h => by
    simp only [allElemsL, Bool.and_eq_true] at h
    simp only [collectBlocks]
    split
    · exact allElems_collect q hp ns h.2
    · simp [allElemsL, allElemsN, hp, allElems_collect q hp ns h.2]
  | .cons (.elem t a c) ns => fun h => by
    simp only [allElemsL, allElemsN, Bool.and_eq_true] at h
    simp only [collectBlocks]
    split
    · simp [allElemsL, allElemsN, h.1.1, h.1.2, allElems_collect q hp ns h.2]
    · split
      · simp [allElemsL, allElemsN, hp, h.1.1, h.1.2, allElems_collect q hp ns h.2]
      · rw [allElemsL_nlApp, allElems_collect q hp c h.1.2,
          allElems_collect q hp ns h.2]
        rfl

/-! ## C1: removed-tag deletion -/

theorem allowed_not_removed (t : String) (h : memStr t allowedTags = true) :
    memStr t removedTags = false := by
  simp only [allowedTags, allowedBlockTags, allowedInlineTags, List.cons_append,
    List.nil_append, memStr, Bool.or_eq_true, beq_iff_eq, Bool.false_eq_true,
    or_false] at h
  rcases h with rfl | rfl | rfl | rfl | rfl | rfl | rfl | rfl | rfl | rfl | rfl | rfl |
    rfl | rfl | rfl | rfl | rfl | rfl | rfl | rfl | rfl | rfl <;> decide

mutual
theorem nr_removeN : ∀ n, (match removeN n with
    | some m => allElemsN noRemovedTagQ m = true
    | none => True)
  | .text _ => rfl
  | .elem t a c => by
    by_cases h : memStr t removedTags = true
    · have hp : removeN (.elem t a c) = none := by simp [removeN, h]
      simp only [hp]
    · have h' : memStr t removedTags = false := by simpa using h
      have hp : removeN (.elem t a c) = some (.elem t a (removeL c)) := by
        simp [removeN, h']
      simp only [hp]
      simp only [allElemsN, noRemovedTagQ, h', Bool.not_false, Bool.true_and]
      exact nr_removeL c
theorem nr_removeL : ∀ ns, allElemsL noRemovedTagQ (removeL ns) = true
  | .nil => rfl
  | .cons n ns => by
    have hn := nr_removeN n
    simp only [removeL]
    cases hp : removeN n with
    | none => exact nr_removeL ns
    | some m =>
      rw [hp] at hn
      simp only at hn
      simp only [allElemsL, Bool.and_eq_true]
      exact ⟨hn, nr_removeL ns⟩
end

theorem nr_sanitizeL (ns : NodeList) : allElemsL noRemovedTagQ (sanitizeL ns) = true := by
  refine allElems_sanitizeL noRemovedTagQ ?_ ns
  intro t a hmem
  simp only [noRemovedTagQ, Bool.not_eq_true']
  exact allowed_not_removed _ hmem

theorem nr_cleanDoc (doc : NodeList) : allElemsL noRemovedTagQ (cleanDoc doc) = true := by
  unfold cleanDoc
  refine allElems_pruneL _ _ (allElems_groupLi _ rfl _ (allElems_noliL _ rfl _
    (allElems_uwL _ _ (nr_sanitizeL (removeL doc)))))

theorem leaves_cleanDoc_sublist (doc : NodeList) :
    List.Sublist (leavesL (cleanDoc doc)) (leavesL (removeL doc)) := by
  unfold cleanDoc
  have h := leaves_pruneL (groupLi (noliL (uwL (sanitizeL (removeL doc)))))
  rwa [leaves_groupLi, leaves_noliL, leaves_uwL, leaves_sanitizeL] at h

/-- C1 counterexample: the claim's removed set includes `table`, but
`REMOVED_TAGS` does not — a `table` is merely unwrapped, and text that occurs
in the input only inside a table survives into the cleaned description. -/
theorem tableText_cex :
    extractDescription exTableDoc "" = "<p>Geheim</p>" ∧
    containsSub (extractDescription exTableDoc "") "Geheim" = true := by
  exact ⟨by decide, by decide⟩

mutual
theorem leaves_removeN : ∀ n, (match removeN n with
    | some m => List.Sublist (leavesN m) (leavesN n)
    | none => True)
  | .text _ => List.Sublist.refl _
  | .elem t a c => by
    by_cases h : memStr t removedTags = true
    · have hp : removeN (.elem t a c) = none := by simp [removeN, h]
      simp only [hp]
    · have h' : memStr t removedTags = false := by simpa using h
      have hp : removeN (.elem t a c) = some (.elem t a (removeL c)) := by
        simp [removeN, h']
      simp only [hp]
      exact leaves_removeL c
theorem leaves_removeL : ∀ ns, List.Sublist (leavesL (removeL ns)) (leavesL ns)
  | .nil => List.Sublist.refl _
  | .cons n ns => by
    have hn := leaves_removeN n
    simp only [removeL]
    cases hp : removeN n with
    | none => exact (leaves_removeL ns).trans (List.sublist_append_right _ _)
    | some m =>
      rw [hp] at hn
      simp only at hn
      exact List.Sublist.append hn (leaves_removeL ns)
end

/-- C1 amended: the removed set is `script, style, picture, figure, img, svg,
header, footer, noscript` — *without* `table`.  For that set the claim holds:
after `clean_description_tree` no element with a removed tag remains, and
every surviving text leaf already occurs in the removal pass's output, whose
leaves in turn are a subsequence of the input's (a removed node's descendants
contribute nothing).  Tables are instead unwrapped, so table-only text can
appear in the output. -/
theorem cleanDoc_removes_claim (doc : NodeList) :
    allElemsL noRemovedTagQ (cleanDoc doc) = true ∧
    List.Sublist (leavesL (cleanDoc doc)) (leavesL (removeL doc)) ∧
    List.Sublist (leavesL (removeL doc)) (leavesL doc) :=
  ⟨nr_cleanDoc doc, leaves_cleanDoc_sublist doc, leaves_removeL doc⟩

/-! ## C2: idempotence of the description pipeline — infrastructure -/

mutual
theorem allElems_monoN (q1 q2 : String → List (String × String) → Bool)
    (himp : ∀ t a, q1 t a = true → q2 t a = true) :
    ∀ n, allElemsN q1 n = true → allElemsN q2 n = true
  | .text _ => fun _ => rfl
  | .elem t a c => fun h => by
    simp only [allElemsN, Bool.and_eq_true] at h ⊢
    exact ⟨himp t a h.1, allElems_monoL q1 q2 himp c h.2⟩
theorem allElems_monoL (q1 q2 : String → List (String × String) → Bool)
    (himp : ∀ t a, q1 t a = true → q2 t a = true) :
    ∀ ns, allElemsL q1 ns = true → allElemsL q2 ns = true
  | .nil => fun _ => rfl
  | .cons n ns => fun h => by
    simp only [allElemsL, Bool.and_eq_true] at h ⊢
    exact ⟨allElems_monoN q1 q2 himp n h.1, allElems_monoL q1 q2 himp ns h.2⟩
end

theorem allElemsL_eq_nlAll (q : String → List (String × String) → Bool) (ns : NodeList) :
    allElemsL q ns = nlAll (allElemsN q) ns := by
  induction ns using nlInd with
  | hnil => rfl
  | hcons n ns ih => simp [allElemsL, nlAll, ih]

theorem neTextL_eq_nlAll (ns : NodeList) : neTextL ns = nlAll neTextN ns := by
  induction ns using nlInd with
  | hnil => rfl
  | hcons n ns ih => simp [neTextL, nlAll, ih]

theorem nbL_eq_nlAll (ns : NodeList) : nbL ns = nlAll nbN ns := by
  induction ns using nlInd with
  | hnil => rfl
  | hcons n ns ih => simp [nbL, nlAll, ih]

theorem liOkL_eq_nlAll (flag : Bool) (ns : NodeList) :
    liOkL flag ns = nlAll (liOkN flag) ns := by
  induction ns using nlInd with
  | hnil => rfl
  | hcons n ns ih => simp [liOkL, nlAll, ih]

/-- Generic preservation of a per-node predicate by the boilerplate filter. -/
theorem nlAll_filterAdminAux (p : Node → Bool) :
    ∀ (last : Option String) (bs : NodeList), nlAll p bs = true →
      nlAll p (filterAdminAux last bs) = true := by
  intro last bs
  induction bs using nlInd generalizing last with
  | hnil => intro _; rfl
  | hcons b bs ih =>
    intro h
    simp only [nlAll, Bool.and_eq_true] at h
    simp only [filterAdminAux]
    by_cases h1 : (normText b == "") = true
    · simp only [h1, if_true]
      exact ih last h.2
    · simp only [h1, Bool.false_eq_true, if_false]
      by_cases h2 : isAdminBlock b (normText b) = true
      · simp only [h2, if_true]
        exact ih last h.2
      · simp only [h2, Bool.false_eq_true, if_false]
        by_cases h3 : (last == some (normText b)) = true
        · simp only [h3, if_true]
          exact ih last h.2
        · simp only [h3, Bool.false_eq_true, if_false, nlAll, Bool.and_eq_true]
          exact ⟨h.1, ih (some (normText b)) h.2⟩

theorem nlAll_truncate (p : Node → Bool) :
    ∀ bs : NodeList, nlAll p bs = true →
      nlAll p (truncateAfterStopKeywords bs) = true := by
  intro bs
  induction bs using nlInd with
  | hnil => intro _; rfl
  | hcons b bs ih =>
    intro h
    simp only [nlAll, Bool.and_eq_true] at h
    simp only [truncateAfterStopKeywords]
    split
    · rfl
    · simp only [nlAll, Bool.and_eq_true]
      exact ⟨h.1, ih h.2⟩

/-- Generic preservation of a per-node predicate by the re-parsing model:
only `"\n\n"` text nodes are added between the blocks. -/
theorem nlAll_reparse (p : Node → Bool) (hsep : p (.text "\n\n") = true) :
    ∀ bs : NodeList, nlAll p bs = true → nlAll p (reparseKeep bs) = true
  | .nil => fun _ => rfl
  | .cons b .nil => fun h => h
  | .cons b (.cons b' bs) => fun h => by
    simp only [nlAll, Bool.and_eq_true] at h
    simp only [reparseKeep, nlAll, Bool.and_eq_true]
    have := nlAll_reparse p hsep (.cons b' bs) (by simp [nlAll, h.2.1, h.2.2])
    exact ⟨h.1, hsep, this⟩

/-- The boilerplate filter's own output passes the filter and has the
dedup-chain property. -/
theorem filterAdmin_establish :
    ∀ (last : Option String) (bs : NodeList),
      nlAll goodBlockB (filterAdminAux last bs) = true ∧
      distinctFrom last (filterAdminAux last bs) = true := by
  intro last bs
  induction bs using nlInd generalizing last with
  | hnil => exact ⟨rfl, rfl⟩
  | hcons b bs ih =>
    simp only [filterAdminAux]
    by_cases h1 : (normText b == "") = true
    · simp only [h1, if_true]
      exact ih last
    · simp only [h1, Bool.false_eq_true, if_false]
      by_cases h2 : isAdminBlock b (normText b) = true
      · simp only [h2, if_true]
        exact ih last
      · simp only [h2, Bool.false_eq_true, if_false]
        by_cases h3 : (last == some (normText b)) = true
        · simp only [h3, if_true]
          exact ih last
        · simp only [h3, Bool.false_eq_true, if_false]
          constructor
          · simp only [nlAll, Bool.and_eq_true]
            refine ⟨?_, (ih (some (normText b))).1⟩
            simp only [goodBlockB, Bool.and_eq_true, bne_iff_ne, ne_eq,
              Bool.not_eq_true']
            exact ⟨by simpa using h1, by simpa using h2⟩
          · simp only [distinctFrom, Bool.and_eq_true]
            refine ⟨by simpa using h3, (ih (some (normText b))).2⟩

theorem truncate_establishStop (bs : NodeList) :
    nlAll notStopB (truncateAfterStopKeywords bs) = true := by
  induction bs using nlInd with
  | hnil => rfl
  | hcons b bs ih =>
    simp only [truncateAfterStopKeywords]
    split
    · rfl
    · rename_i h
      simp only [nlAll, Bool.and_eq_true]
      exact ⟨by simp [notStopB]; simpa using h, ih⟩

theorem distinctFrom_truncate :
    ∀ (last : Option String) (bs : NodeList), distinctFrom last bs = true →
      distinctFrom last (truncateAfterStopKeywords bs) = true := by
  intro last bs
  induction bs using nlInd generalizing last with
  | hnil => intro _; rfl
  | hcons b bs ih =>
    intro h
    simp only [distinctFrom, Bool.and_eq_true] at h
    simp only [truncateAfterStopKeywords]
    split
    · rfl
    · simp only [distinctFrom, Bool.and_eq_true]
      exact ⟨h.1, ih (some (normText b)) h.2⟩

/-- `ensure_title_block` preserves any per-block predicate that holds for the
title paragraph. -/
theorem ensure_nlAll (p : Node → Bool) (bs : NodeList) (title : String)
    (h : nlAll p bs = true)
    (hp : normalizeWhitespace title ≠ "" →
      p (titleParagraph (normalizeWhitespace title)) = true) :
    nlAll p (ensureTitleBlock bs title) = true := by
  unfold ensureTitleBlock
  by_cases hnt : (normalizeWhitespace title == "") = true
  · simp [hnt, h]
  · simp only [hnt, Bool.false_eq_true, if_false]
    have hp' := hp (by simpa using hnt)
    cases bs with
    | nil => simp [nlAll, hp']
    | cons b rest =>
      by_cases hm : (lowerStr (normText b) == lowerStr (normalizeWhitespace title)) = true
      · simp only [hm, if_true]
        exact h
      · simp only [hm, Bool.false_eq_true, if_false, nlAll, Bool.and_eq_true]
        exact ⟨hp', by simpa [nlAll] using h⟩

/-! ## Idempotence of `str.strip` and the attribute sanitizer -/

theorem dropWsLead_idem (l : List Char) : dropWsLead (dropWsLead l) = dropWsLead l := by
  induction l with
  | nil => rfl
  | cons c cs ih =>
    by_cases h : isWsChar c
    · simp [dropWsLead, h, ih]
    · simp [dropWsLead, h]

theorem head_dropWsLead (l : List Char) (c : Char)
    (h : (dropWsLead l).head? = some c) : isWsChar c = false := by
  induction l with
  | nil => simp [dropWsLead] at h
  | cons x xs ih =>
    by_cases hx : isWsChar x
    · simp only [dropWsLead, hx, if_true] at h
      exact ih h
    · simp only [dropWsLead, hx, Bool.false_eq_true, if_false, List.head?_cons,
        Option.some.injEq] at h
      rw [← h]
      simpa using hx

theorem getLast_dropWsLead (l : List Char) :
    dropWsLead l = [] ∨ (dropWsLead l).getLast? = l.getLast? := by
  induction l with
  | nil => exact Or.inl rfl
  | cons c cs ih =>
    by_cases h : isWsChar c
    · simp only [dropWsLead, h, if_true]
      rcases ih with h1 | h1
      · exact Or.inl h1
      · by_cases hcs : dropWsLead cs = []
        · exact Or.inl hcs
        · right
          rw [h1]
          have hcsne : cs ≠ [] := by
            intro he
            rw [he] at hcs
            exact hcs rfl
          cases cs with
          | nil => exact absurd rfl hcsne
          | cons y ys => simp [List.getLast?_cons_cons]
    · simp [dropWsLead, h]

theorem stripChars_idem (cs : List Char) :
    stripChars (stripChars cs) = stripChars cs := by
  unfold stripChars
  cases hX : dropWsLead (dropWsLead cs.reverse).reverse with
  | nil => rfl
  | cons x xs =>
    rw [← hX]
    have hXne : dropWsLead (dropWsLead cs.reverse).reverse ≠ [] := by
      rw [hX]; simp
    have hBne : dropWsLead cs.reverse ≠ [] := by
      intro hB
      exact hXne (by rw [hB]; rfl)
    have hBhead : ∃ b, (dropWsLead cs.reverse).head? = some b := by
      cases hB : dropWsLead cs.reverse with
      | nil => exact absurd hB hBne
      | cons y ys => exact ⟨y, rfl⟩
    obtain ⟨b, hb⟩ := hBhead
    have hbn : isWsChar b = false := head_dropWsLead _ _ hb
    have hXlast : (dropWsLead (dropWsLead cs.reverse).reverse).getLast?
        = (dropWsLead cs.reverse).reverse.getLast? := by
      rcases getLast_dropWsLead (dropWsLead cs.reverse).reverse with h1 | h1
      · exact absurd h1 hXne
      · exact h1
    have hrevlast : (dropWsLead cs.reverse).reverse.getLast?
        = (dropWsLead cs.reverse).head? := by
      rw [List.getLast?_reverse]
    have hXrevhead : (dropWsLead (dropWsLead cs.reverse).reverse).reverse.head? = some b := by
      rw [List.head?_reverse, hXlast, hrevlast, hb]
    rw [dropWsLead_of_head hXrevhead hbn, List.reverse_reverse, dropWsLead_idem]

theorem stripStr_idem (s : String) : stripStr (stripStr s) = stripStr s := by
  show (⟨stripChars (⟨stripChars s.data⟩ : String).data⟩ : String) = _
  rw [show (⟨stripChars s.data⟩ : String).data = stripChars s.data from rfl,
    stripChars_idem]
  rfl

theorem filter_filter_same (p : String × String → Bool) (a : List (String × String)) :
    (a.filter p).filter p = a.filter p := by
  rw [List.filter_filter]
  have he : (fun x : String × String => p x && p x) = p := by
    funext x
    exact Bool.and_self _
  rw [he]

theorem getAttr_delAttr_self (a : List (String × String)) (k : String) :
    getAttr (delAttr a k) k = none := by
  induction a with
  | nil => rfl
  | cons x xs ih =>
    by_cases h : (x.1 == k) = true
    · have hb : (x.1 != k) = false := by simp [bne, h]
      simp only [delAttr, List.filter_cons, hb, Bool.false_eq_true, if_false]
      simpa [delAttr] using ih
    · have hb : (x.1 != k) = true := by simp [bne]; simpa using h
      simp only [delAttr, List.filter_cons, hb, if_true, getAttr, h,
        Bool.false_eq_true, if_false]
      simpa [delAttr] using ih

theorem delAttr_filter_comm (a : List (String × String)) (k : String)
    (p : String × String → Bool) :
    (delAttr a k).filter p = delAttr (a.filter p) k := by
  unfold delAttr
  rw [List.filter_filter, List.filter_filter]
  have he : (fun x : String × String => p x && (x.1 != k))
      = (fun x => (x.1 != k) && p x) := by
    funext x
    exact Bool.and_comm _ _
  rw [he]

theorem filter_setAttr_self (a : List (String × String)) (k v : String)
    (f : String × String → Bool)
    (hall : ∀ x ∈ a, f x = true) (hk : ∀ y, f (k, y) = true) :
    (setAttr a k v).filter f = setAttr a k v := by
  rw [List.filter_eq_self]
  intro x hx
  unfold setAttr at hx
  rcases List.mem_map.mp hx with ⟨y, hy, he⟩
  by_cases h1 : (y.1 == k) = true
  · rw [← he]
    simp only [h1, if_true]
    have hyk : y.1 = k := by simpa using h1
    rw [hyk]
    exact hk v
  · rw [← he]
    simp only [h1, Bool.false_eq_true, if_false]
    exact hall y hy

theorem getAttr_setAttr_found (a : List (String × String)) (k v w : String)
    (h : getAttr a k = some v) : getAttr (setAttr a k w) k = some w := by
  induction a with
  | nil => simp [getAttr] at h
  | cons x xs ih =>
    by_cases h1 : (x.1 == k) = true
    · have hs : setAttr (x :: xs) k w = (x.1, w) :: setAttr xs k w := by
        simp only [setAttr, List.map_cons]
        rw [if_pos h1]
      rw [hs]
      simp [getAttr, h1]
    · have hs : setAttr (x :: xs) k w = x :: setAttr xs k w := by
        simp only [setAttr, List.map_cons]
        rw [if_neg h1]
      simp only [getAttr, h1, Bool.false_eq_true, if_false] at h
      rw [hs]
      simp [getAttr, h1, ih h]

theorem setAttr_setAttr (a : List (String × String)) (k v : String) :
    setAttr (setAttr a k v) k v = setAttr a k v := by
  induction a with
  | nil => rfl
  | cons x xs ih =>
    by_cases h1 : (x.1 == k) = true
    · have hs : setAttr (x :: xs) k v = (x.1, v) :: setAttr xs k v := by
        simp only [setAttr, List.map_cons]
        rw [if_pos h1]
      rw [hs]
      have hs2 : setAttr ((x.1, v) :: setAttr xs k v) k v
          = (x.1, v) :: setAttr (setAttr xs k v) k v := by
        simp only [setAttr, List.map_cons]
        rw [if_pos h1]
      rw [hs2, ih]
    · have hs : setAttr (x :: xs) k v = x :: setAttr xs k v := by
        simp only [setAttr, List.map_cons]
        rw [if_neg h1]
      rw [hs]
      have hs2 : setAttr (x :: setAttr xs k v) k v
          = x :: setAttr (setAttr xs k v) k v := by
        simp only [setAttr, List.map_cons]
        rw [if_neg h1]
      rw [hs2, ih]

theorem sanitizeAttrs_idem (t : String) (a : List (String × String)) :
    sanitizeAttrs t (sanitizeAttrs t a) = sanitizeAttrs t a := by
  unfold sanitizeAttrs
  by_cases ha : (t == "a") = true
  · simp only [ha, if_true]
    cases hh : getAttr (a.filter fun p => memStr p.1 (allowedAttrsFor t)) "href" with
    | none =>
      rw [filter_filter_same, hh]
    | some v =>
      by_cases hv : (stripStr v == "") = true
      · simp only [hh, hv, if_true]
        rw [delAttr_filter_comm, filter_filter_same, getAttr_delAttr_self]
      · simp only [hh, hv, Bool.false_eq_true, if_false]
        have hta : t = "a" := by simpa using ha
        have hfs : (setAttr (a.filter fun p => memStr p.1 (allowedAttrsFor t))
              "href" (stripStr v)).filter (fun p => memStr p.1 (allowedAttrsFor t))
            = setAttr (a.filter fun p => memStr p.1 (allowedAttrsFor t))
                "href" (stripStr v) := by
          refine filter_setAttr_self _ _ _ _ ?_ ?_
          · intro x hx
            exact (List.mem_filter.mp hx).2
          · intro y
            rw [hta]
            show memStr "href" (allowedAttrsFor "a") = true
            decide
        have hget : getAttr (setAttr (a.filter fun p => memStr p.1 (allowedAttrsFor t))
              "href" (stripStr v)) "href" = some (stripStr v) :=
          getAttr_setAttr_found _ _ v _ hh
        simp only [hfs, hget, stripStr_idem v, hv, Bool.false_eq_true, if_false]
        exact setAttr_setAttr _ _ _
  · simp only [ha, Bool.false_eq_true, if_false]
    rw [filter_filter_same]

/-! ## The sanitizer phases are the identity on already-clean trees -/

theorem nlAll_nlApp (p : Node → Bool) (a b : NodeList) :
    nlAll p (nlApp a b) = (nlAll p a && nlAll p b) := by
  induction a using nlInd with
  | hnil => rfl
  | hcons n ns ih => simp [nlApp, nlAll, ih, Bool.and_assoc]

mutual
theorem remove_idN : ∀ n, allElemsN noRemovedTagQ n = true → removeN n = some n
  | .text _ => fun _ => rfl
  | .elem t a c => fun h => by
    simp only [allElemsN, Bool.and_eq_true, noRemovedTagQ, Bool.not_eq_true'] at h
    simp only [removeN, h.1, Bool.false_eq_true, if_false]
    rw [remove_idL c h.2]
theorem remove_idL : ∀ ns, allElemsL noRemovedTagQ ns = true → removeL ns = ns
  | .nil => fun _ => rfl
  | .cons n ns => fun h => by
    simp only [allElemsL, Bool.and_eq_true] at h
    simp only [removeL, remove_idN n h.1, remove_idL ns h.2]
end

theorem convertSpan_noop_nonspan (t : String) (a : List (String × String))
    (h : (t == "span") = false) : convertSpanFormatting t a = (t, a) := by
  unfold convertSpanFormatting
  simp [bne, h]

theorem sanitizeAttrs_span (a : List (String × String)) :
    sanitizeAttrs "span" a = [] := by
  unfold sanitizeAttrs
  have h : (("span" : String) == "a") = false := by decide
  simp only [h, Bool.false_eq_true, if_false]
  have hm : ∀ p : String × String, memStr p.1 (allowedAttrsFor "span") = false := by
    intro p
    rfl
  simp [hm]

mutual
theorem sanitize_idN : ∀ n, allElemsN saneQ n = true → sanitizeN n = .cons n .nil
  | .text _ => fun _ => rfl
  | .elem t a c => fun h => by
    simp only [allElemsN, saneQ, Bool.and_eq_true] at h
    obtain ⟨⟨h11, h12⟩, h2⟩ := h
    have hattr : a = sanitizeAttrs t a := by simpa using h12
    have hconv : convertSpanFormatting t a = (t, a) := by
      by_cases hsp : (t == "span") = true
      · have ht : t = "span" := by simpa using hsp
        subst ht
        have ha : a = [] := by rw [hattr, sanitizeAttrs_span]
        rw [ha]
        rfl
      · exact convertSpan_noop_nonspan t a (by simpa using hsp)
    simp only [sanitizeN, hconv, h11, if_true]
    rw [← hattr, sanitize_idL c h2]
theorem sanitize_idL : ∀ ns, allElemsL saneQ ns = true → sanitizeL ns = ns
  | .nil => fun _ => rfl
  | .cons n ns => fun h => by
    simp only [allElemsL, Bool.and_eq_true] at h
    simp only [sanitizeL]
    rw [sanitize_idN n h.1, sanitize_idL ns h.2]
    rfl
end

mutual
theorem uw_idN : ∀ n, nbN n = true → uwN n = .cons n .nil
  | .text _ => fun _ => rfl
  | .elem t a c => fun h => by
    simp only [nbN, Bool.and_eq_true, Bool.not_eq_true'] at h
    simp only [uwN, h.1, Bool.false_eq_true, if_false]
    rw [uw_idL c h.2]
theorem uw_idL : ∀ ns, nbL ns = true → uwL ns = ns
  | .nil => fun _ => rfl
  | .cons n ns => fun h => by
    simp only [nbL, Bool.and_eq_true] at h
    simp only [uwL]
    rw [uw_idN n h.1, uw_idL ns h.2]
    rfl
end

mutual
theorem prune_idN : ∀ n, neTextN n = true → pruneN n = some n
  | .text _ => fun _ => rfl
  | .elem t a c => fun h => by
    simp only [neTextN, Bool.and_eq_true] at h
    by_cases hbr : (t == "br") = true
    · simp only [pruneN, hbr, if_true]
      rw [prune_idL c h.2]
    · have hne : (normText (.elem t a c) == "") = false := by
        rcases (Bool.or_eq_true _ _).mp h.1 with h1 | h1
        · exact absurd h1 hbr
        · simpa using h1
      simp only [pruneN, hbr, Bool.false_eq_true, if_false, hne]
      rw [prune_idL c h.2]
theorem prune_idL : ∀ ns, neTextL ns = true → pruneL ns = ns
  | .nil => fun _ => rfl
  | .cons n ns => fun h => by
    simp only [neTextL, Bool.and_eq_true] at h
    simp only [pruneL, prune_idN n h.1, prune_idL ns h.2]
end

/-! ## Orphan-`li` bookkeeping -/

theorem liOkL_nlApp (flag : Bool) (a b : NodeList) :
    liOkL flag (nlApp a b) = (liOkL flag a && liOkL flag b) := by
  induction a using nlInd with
  | hnil => rfl
  | hcons n ns ih => simp [nlApp, liOkL, ih, Bool.and_assoc]

theorem liOk_flushRun (run rest : NodeList)
    (h1 : liOkL true run = true) (h2 : liOkL false rest = true) :
    liOkL false (flushRun run rest) = true := by
  cases run with
  | nil => exact h2
  | cons m ms =>
    show liOkL false (.cons (.elem "ul" [] (.cons m ms)) rest) = true
    simp only [liOkL, Bool.and_eq_true]
    refine ⟨?_, h2⟩
    simp only [liOkN, Bool.and_eq_true]
    exact ⟨by decide, h1⟩

theorem liOkN_false_of_true (n : Node) (hli : isLiElem n = false)
    (h : liOkN true n = true) : liOkN false n = true := by
  cases n with
  | text _ => rfl
  | elem t a c =>
    simp only [liOkN, Bool.and_eq_true] at h ⊢
    refine ⟨?_, h.2⟩
    simp only [isLiElem] at hli
    simp [bne, hli]

theorem liOk_groupLiAux :
    ∀ (ns run : NodeList), liOkL true run = true → liOkL true ns = true →
      liOkL false (groupLiAux run ns) = true := by
  intro ns
  induction ns using nlInd with
  | hnil =>
    intro run hr _
    exact liOk_flushRun run .nil hr rfl
  | hcons n ns ih =>
    intro run hr h
    simp only [liOkL, Bool.and_eq_true] at h
    by_cases hli : isLiElem n
    · simp only [groupLiAux, hli, if_true]
      refine ih (nlApp run (.cons n .nil)) ?_ h.2
      rw [liOkL_nlApp]
      simp [hr, liOkL, h.1]
    · have hli' : isLiElem n = false := by simpa using hli
      simp only [groupLiAux, hli', Bool.false_eq_true, if_false]
      refine liOk_flushRun run _ hr ?_
      simp only [liOkL, Bool.and_eq_true]
      exact ⟨liOkN_false_of_true n hli' h.1, ih .nil rfl h.2⟩

mutual
theorem liOkTrue_noliN : ∀ n, liOkN true (noliN n) = true
  | .text _ => rfl
  | .elem t a c => by
    simp only [noliN]
    split
    · rename_i hlist
      simp only [liOkN, Bool.and_eq_true]
      refine ⟨by simp, ?_⟩
      rw [hlist]
      exact liOkTrue_noliL c
    · rename_i hlist
      have hlist' : (t == "ul" || t == "ol") = false := by simpa using hlist
      simp only [liOkN, Bool.and_eq_true]
      refine ⟨by simp, ?_⟩
      rw [hlist']
      exact liOk_groupLiAux (noliL c) .nil rfl (liOkTrue_noliL c)
theorem liOkTrue_noliL : ∀ ns, liOkL true (noliL ns) = true
  | .nil => rfl
  | .cons n ns => by
    simp only [noliL, liOkL, Bool.and_eq_true]
    exact ⟨liOkTrue_noliN n, liOkTrue_noliL ns⟩
end

mutual
theorem liOk_pruneN : ∀ (flag : Bool) n, liOkN flag n = true →
    (match pruneN n with | some m => liOkN flag m = true | none => True)
  | _, .text _ => fun _ => rfl
  | flag, .elem t a c => fun h => by
    simp only [liOkN, Bool.and_eq_true] at h
    by_cases hbr : (t == "br") = true
    · have hp : pruneN (.elem t a c) = some (.elem t a (pruneL c)) := by
        simp [pruneN, hbr]
      simp only [hp]
      simp only [liOkN, Bool.and_eq_true]
      exact ⟨h.1, liOk_pruneL _ c h.2⟩
    · by_cases hemp : (normText (.elem t a c) == "") = true
      · have hp : pruneN (.elem t a c) = none := by simp [pruneN, hbr, hemp]
        simp only [hp]
      · have hp : pruneN (.elem t a c) = some (.elem t a (pruneL c)) := by
          simp [pruneN, hbr, hemp]
        simp only [hp]
        simp only [liOkN, Bool.and_eq_true]
        exact ⟨h.1, liOk_pruneL _ c h.2⟩
theorem liOk_pruneL : ∀ (flag : Bool) ns, liOkL flag ns = true →
    liOkL flag (pruneL ns) = true
  | _, .nil => fun _ => rfl
  | flag, .cons n ns => fun h => by
    simp only [liOkL, Bool.and_eq_true] at h
    have hn := liOk_pruneN flag n h.1
    simp only [pruneL]
    cases hp : pruneN n with
    | none => exact liOk_pruneL flag ns h.2
    | some m =>
      rw [hp] at hn
      simp only at hn
      simp only [liOkL, Bool.and_eq_true]
      exact ⟨hn, liOk_pruneL flag ns h.2⟩
end

theorem groupLiAux_nil_id : ∀ ns, liOkL false ns = true → groupLiAux .nil ns = ns := by
  intro ns
  induction ns using nlInd with
  | hnil => intro _; rfl
  | hcons n ns ih =>
    intro h
    simp only [liOkL, Bool.and_eq_true] at h
    have hnl : isLiElem n = false := by
      cases n with
      | text s => rfl
      | elem t a c =>
        have h1 := h.1
        simp only [liOkN, Bool.or_false, Bool.and_eq_true] at h1
        simp only [isLiElem]
        simpa using h1.1
    simp only [groupLiAux, hnl, Bool.false_eq_true, if_false, flushRun]
    rw [ih h.2]

theorem groupLi_id (ns : NodeList) (h : liOkL false ns = true) : groupLi ns = ns :=
  groupLiAux_nil_id ns h

mutual
theorem noli_idN : ∀ (flag : Bool) n, liOkN flag n = true → noliN n = n
  | _, .text _ => fun _ => rfl
  | flag, .elem t a c => fun h => by
    simp only [liOkN, Bool.and_eq_true] at h
    simp only [noliN]
    split
    · rename_i hlist
      rw [noli_idL (t == "ul" || t == "ol") c h.2]
    · rename_i hlist
      have hlist' : (t == "ul" || t == "ol") = false := by simpa using hlist
      rw [noli_idL (t == "ul" || t == "ol") c h.2]
      rw [hlist'] at h
      rw [groupLi_id c h.2]
theorem noli_idL : ∀ (flag : Bool) ns, liOkL flag ns = true → noliL ns = ns
  | _, .nil => fun _ => rfl
  | flag, .cons n ns => fun h => by
    simp only [liOkL, Bool.and_eq_true] at h
    simp only [noliL]
    rw [noli_idN flag n h.1, noli_idL flag ns h.2]
end

/-! ## Properties established by `collect_blocks` -/

theorem normText_textP (s : String) :
    normText (.elem "p" [] (.cons (.text (normalizeWhitespace s)) .nil))
      = normalizeWhitespace s := by
  show normalizeWhitespace (normalizeWhitespace s) = normalizeWhitespace s
  exact normWs_idem s

theorem normText_wrapP (e : Node) :
    normText (.elem "p" [] (.cons e .nil)) = normText e := by
  unfold normText textOf
  simp only [leavesN, leavesL, List.append_nil]

theorem memStr_inline_ne_br (t : String) (h : memStr t allowedInlineTags = true) :
    (t == "br") = false := by
  simp only [allowedInlineTags, memStr, Bool.or_eq_true, beq_iff_eq,
    Bool.false_eq_true, or_false] at h
  rcases h with h | h | h | h | h | h | h | h | h | h <;> subst h <;> decide

theorem blockTag_collect : ∀ ns, nlAll blockTagB (collectBlocks ns) = true
  | .nil => rfl
  | .cons (.text s) ns => by
    simp only [collectBlocks]
    split
    · exact blockTag_collect ns
    · simp only [nlAll, Bool.and_eq_true]
      exact ⟨rfl, blockTag_collect ns⟩
  | .cons (.elem t a c) ns => by
    simp only [collectBlocks]
    split
    · rename_i hb
      simp only [nlAll, Bool.and_eq_true]
      exact ⟨hb, blockTag_collect ns⟩
    · split
      · simp only [nlAll, Bool.and_eq_true]
        exact ⟨rfl, blockTag_collect ns⟩
      · rw [nlAll_nlApp, blockTag_collect c, blockTag_collect ns]
        rfl

theorem liOk_collect : ∀ ns, liOkL false ns = true →
    nlAll (liOkN false) (collectBlocks ns) = true
  | .nil => fun _ => rfl
  | .cons (.text s) ns => fun h => by
    simp only [liOkL, Bool.and_eq_true] at h
    simp only [collectBlocks]
    split
    · exact liOk_collect ns h.2
    · simp only [nlAll, Bool.and_eq_true]
      exact ⟨rfl, liOk_collect ns h.2⟩
  | .cons (.elem t a c) ns => fun h => by
    simp only [liOkL, Bool.and_eq_true] at h
    simp only [collectBlocks]
    split
    · simp only [nlAll, Bool.and_eq_true]
      exact ⟨h.1, liOk_collect ns h.2⟩
    · split
      · simp only [nlAll, Bool.and_eq_true]
        refine ⟨?_, liOk_collect ns h.2⟩
        have hexp : liOkN false (.elem "p" [] (.cons (.elem t a c) .nil))
            = ((true || false) && (liOkN false (.elem t a c) && true)) := rfl
        rw [hexp, h.1]
        rfl
      · rename_i hblock hinl
        have hf : (t == "ul" || t == "ol") = false := by
          by_cases h1 : t = "ul"
          · subst h1
            exact absurd (by decide) hblock
          · by_cases h2 : t = "ol"
            · subst h2
              exact absurd (by decide) hblock
            · simp [h1, h2]
        have hc : liOkL false c = true := by
          have h1 := h.1
          simp only [liOkN, Bool.and_eq_true] at h1
          rw [hf] at h1
          exact h1.2
        rw [nlAll_nlApp, liOk_collect c hc, liOk_collect ns h.2]
        rfl

theorem neText_collect : ∀ ns, neTextL ns = true →
    nlAll neTextN (collectBlocks ns) = true
  | .nil => fun _ => rfl
  | .cons (.text s) ns => fun h => by
    simp only [neTextL, Bool.and_eq_true] at h
    simp only [collectBlocks]
    split
    · exact neText_collect ns h.2
    · rename_i hne
      simp only [nlAll, Bool.and_eq_true]
      refine ⟨?_, neText_collect ns h.2⟩
      have h1 : (normText (.elem "p" [] (.cons (.text (normalizeWhitespace s)) .nil)) != "")
          = true := by
        rw [normText_textP]
        simpa using hne
      have hexp : neTextN (.elem "p" [] (.cons (.text (normalizeWhitespace s)) .nil))
          = (((("p" : String) == "br")
              || normText (.elem "p" [] (.cons (.text (normalizeWhitespace s)) .nil)) != "")
            && (true && true)) := rfl
      have hbr : ((("p" : String) == "br")) = false := by decide
      rw [hexp, h1, hbr]
      rfl
  | .cons (.elem t a c) ns => fun h => by
    simp only [neTextL, Bool.and_eq_true] at h
    simp only [collectBlocks]
    split
    · simp only [nlAll, Bool.and_eq_true]
      exact ⟨h.1, neText_collect ns h.2⟩
    · split
      · rename_i hblock hinl
        simp only [nlAll, Bool.and_eq_true]
        refine ⟨?_, neText_collect ns h.2⟩
        have hne : (normText (.elem t a c) != "") = true := by
          have h1 := h.1
          simp only [neTextN, Bool.and_eq_true, Bool.or_eq_true] at h1
          rcases h1.1 with hbr | hx
          · rw [memStr_inline_ne_br t hinl] at hbr
            exact absurd hbr (by simp)
          · exact hx
        have hw : (normText (.elem "p" [] (.cons (.elem t a c) .nil)) != "") = true := by
          rw [normText_wrapP]
          exact hne
        have hexp : neTextN (.elem "p" [] (.cons (.elem t a c) .nil))
            = (((("p" : String) == "br")
                || normText (.elem "p" [] (.cons (.elem t a c) .nil)) != "")
              && (neTextN (.elem t a c) && true)) := rfl
        have hbr2 : ((("p" : String) == "br")) = false := by decide
        rw [hexp, hw, hbr2, h.1]
        rfl
      · have hc : neTextL c = true := by
          have h1 := h.1
          simp only [neTextN, Bool.and_eq_true] at h1
          exact h1.2
        rw [nlAll_nlApp, neText_collect c hc, neText_collect ns h.2]
        rfl

/-! ## Re-parsing the rendered blocks recovers the block sequence -/

theorem collect_reparse : ∀ B, nlAll blockTagB B = true →
    collectBlocks (reparseKeep B) = B
  | .nil => fun _ => rfl
  | .cons b .nil => fun h => by
    simp only [nlAll, Bool.and_eq_true] at h
    cases b with
    | text s => simp [blockTagB] at h
    | elem t a c =>
      have hb : memStr t allowedBlockTags = true := h.1
      show collectBlocks (.cons (.elem t a c) .nil) = .cons (.elem t a c) .nil
      simp only [collectBlocks, hb, if_true]
  | .cons b (.cons b' bs) => fun h => by
    simp only [nlAll, Bool.and_eq_true] at h
    cases b with
    | text s => simp [blockTagB] at h
    | elem t a c =>
      have hb : memStr t allowedBlockTags = true := h.1
      have hnn : (normalizeWhitespace "\n\n" == "") = true := by decide
      show collectBlocks (.cons (.elem t a c) (.cons (.text "\n\n")
          (reparseKeep (.cons b' bs)))) = .cons (.elem t a c) (.cons b' bs)
      simp only [collectBlocks, hb, if_true, hnn]
      rw [collect_reparse (.cons b' bs) (by simp [nlAll, h.2.1, h.2.2])]

/-! ## The block-level passes are the identity on their own output -/

theorem filterAdminAux_id :
    ∀ (last : Option String) (bs : NodeList), nlAll goodBlockB bs = true →
      distinctFrom last bs = true → filterAdminAux last bs = bs := by
  intro last bs
  induction bs using nlInd generalizing last with
  | hnil => intro _ _; rfl
  | hcons b bs ih =>
    intro h hd
    simp only [nlAll, Bool.and_eq_true] at h
    simp only [distinctFrom, Bool.and_eq_true] at hd
    have hg := h.1
    simp only [goodBlockB, Bool.and_eq_true, bne_iff_ne, ne_eq, Bool.not_eq_true'] at hg
    have h1 : (normText b == "") = false := by simpa using hg.1
    have h3 : (last == some (normText b)) = false := by
      rw [beq_eq_false_iff_ne]
      exact bne_iff_ne.mp hd.1
    simp only [filterAdminAux, h1, hg.2, h3, Bool.false_eq_true, if_false]
    rw [ih (some (normText b)) h.2 hd.2]

theorem truncate_id : ∀ bs, nlAll notStopB bs = true →
    truncateAfterStopKeywords bs = bs := by
  intro bs
  induction bs using nlInd with
  | hnil => intro _; rfl
  | hcons b bs ih =>
    intro h
    simp only [nlAll, Bool.and_eq_true] at h
    have hs : startsWithStopKeyword b = false := by
      have h1 := h.1
      simp only [notStopB, Bool.not_eq_true'] at h1
      exact h1
    simp only [truncateAfterStopKeywords, hs, Bool.false_eq_true, if_false]
    rw [ih h.2]

/-! ## Facts about the synthesized title paragraph -/

theorem normText_titlePara (title : String) :
    normText (titleParagraph (normalizeWhitespace title)) = normalizeWhitespace title := by
  show normalizeWhitespace (normalizeWhitespace title) = normalizeWhitespace title
  exact normWs_idem title

theorem neText_titlePara (title : String) (h : normalizeWhitespace title ≠ "") :
    neTextN (titleParagraph (normalizeWhitespace title)) = true := by
  have hs : normText (.elem "strong" []
        (.cons (.text (normalizeWhitespace title)) .nil))
      = normalizeWhitespace title := by
    show normalizeWhitespace (normalizeWhitespace title) = normalizeWhitespace title
    exact normWs_idem title
  have hp : normText (.elem "p" [] (.cons (.elem "strong" []
        (.cons (.text (normalizeWhitespace title)) .nil)) .nil))
      = normalizeWhitespace title := normText_titlePara title
  have hne : (normalizeWhitespace title != "") = true := by simpa using h
  simp [titleParagraph, neTextN, neTextL, hp, hs, hne]

theorem stop_titlePara (title : String) :
    startsWithStopKeyword (titleParagraph (normalizeWhitespace title))
      = titleStopB title := by
  unfold startsWithStopKeyword titleStopB
  simp only [normText_titlePara]

theorem ne_of_lower_ne (s t : String) (h : (lowerStr s == lowerStr t) = false) :
    (s == t) = false := by
  rw [beq_eq_false_iff_ne] at h ⊢
  intro he
  exact h (by rw [he])

/-! ## The cleaning pass is the identity on the reparse of clean blocks -/

theorem cleanDoc_id_of_blocks (B : NodeList)
    (hsane : nlAll (allElemsN saneQ) B = true)
    (hnb : nlAll nbN B = true)
    (hli : nlAll (liOkN false) B = true)
    (htext : nlAll neTextN B = true) :
    cleanDoc (reparseKeep B) = reparseKeep B := by
  have hsane' : allElemsL saneQ (reparseKeep B) = true := by
    rw [allElemsL_eq_nlAll]
    exact nlAll_reparse _ rfl B hsane
  have hnb' : nbL (reparseKeep B) = true := by
    rw [nbL_eq_nlAll]
    exact nlAll_reparse _ rfl B hnb
  have hli' : liOkL false (reparseKeep B) = true := by
    rw [liOkL_eq_nlAll]
    exact nlAll_reparse _ rfl B hli
  have htext' : neTextL (reparseKeep B) = true := by
    rw [neTextL_eq_nlAll]
    exact nlAll_reparse _ rfl B htext
  have hnr : allElemsL noRemovedTagQ (reparseKeep B) = true := by
    refine allElems_monoL saneQ noRemovedTagQ ?_ _ hsane'
    intro t a ht
    simp only [saneQ, Bool.and_eq_true] at ht
    simp [noRemovedTagQ, allowed_not_removed t ht.1]
  unfold cleanDoc
  rw [remove_idL _ hnr, sanitize_idL _ hsane', uw_idL _ hnb',
    noli_idL false _ hli', groupLi_id _ hli', prune_idL _ htext']

/-! ## Round trip of the block-level passes over `ensure_title_block` -/

theorem filterAdminAux_cons_keep (last : Option String) (b : Node) (bs : NodeList)
    (h1 : (normText b == "") = false) (h2 : isAdminBlock b (normText b) = false)
    (h3 : (last == some (normText b)) = false) :
    filterAdminAux last (.cons b bs) = .cons b (filterAdminAux (some (normText b)) bs) := by
  simp only [filterAdminAux, h1, h2, h3, Bool.false_eq_true, if_false]

theorem filterAdminAux_cons_dropAdmin (last : Option String) (b : Node) (bs : NodeList)
    (h1 : (normText b == "") = false) (h2 : isAdminBlock b (normText b) = true) :
    filterAdminAux last (.cons b bs) = filterAdminAux last bs := by
  simp only [filterAdminAux, h1, Bool.false_eq_true, if_false, h2, if_true]

theorem truncate_cons_keep (b : Node) (bs : NodeList)
    (h : startsWithStopKeyword b = false) :
    truncateAfterStopKeywords (.cons b bs) = .cons b (truncateAfterStopKeywords bs) := by
  simp only [truncateAfterStopKeywords, h, Bool.false_eq_true, if_false]

theorem ensure_roundtrip (bl : NodeList) (title : String)
    (h1 : titleStopB title = false)
    (hGood : nlAll goodBlockB bl = true)
    (hDist : distinctFrom none bl = true)
    (hStop : nlAll notStopB bl = true) :
    ensureTitleBlock (truncateAfterStopKeywords (filterAdminBlocks
        (ensureTitleBlock bl title))) title
      = ensureTitleBlock bl title := by
  by_cases hnt : (normalizeWhitespace title == "") = true
  · have hens : ∀ bs, ensureTitleBlock bs title = bs := by
      intro bs
      unfold ensureTitleBlock
      simp [hnt]
    rw [hens bl]
    rw [show filterAdminBlocks bl = filterAdminAux none bl from rfl]
    rw [filterAdminAux_id none bl hGood hDist, truncate_id bl hStop, hens bl]
  · have hnt' : normalizeWhitespace title ≠ "" := by simpa using hnt
    have htpText : normText (titleParagraph (normalizeWhitespace title))
        = normalizeWhitespace title := normText_titlePara title
    have htpNe : (normText (titleParagraph (normalizeWhitespace title)) == "") = false := by
      rw [htpText]
      simpa using hnt
    have htpStop : startsWithStopKeyword (titleParagraph (normalizeWhitespace title))
        = false := by
      rw [stop_titlePara]
      exact h1
    have htpMatch : (lowerStr (normText (titleParagraph (normalizeWhitespace title)))
        == lowerStr (normalizeWhitespace title)) = true := by
      rw [htpText]
      simp
    cases bl with
    | nil =>
      have hens : ensureTitleBlock .nil title
          = .cons (titleParagraph (normalizeWhitespace title)) .nil := by
        unfold ensureTitleBlock
        simp [hnt]
      rw [hens]
      by_cases hadm : isAdminBlock (titleParagraph (normalizeWhitespace title))
          (normText (titleParagraph (normalizeWhitespace title))) = true
      · have hf : filterAdminBlocks
            (.cons (titleParagraph (normalizeWhitespace title)) .nil) = .nil := by
          show filterAdminAux none _ = _
          simp only [filterAdminAux, htpNe, Bool.false_eq_true, if_false, hadm, if_true]
        rw [hf]
        exact hens
      · have hadm' : isAdminBlock (titleParagraph (normalizeWhitespace title))
            (normText (titleParagraph (normalizeWhitespace title))) = false := by
          simpa using hadm
        have hnone : ((none : Option String)
            == some (normText (titleParagraph (normalizeWhitespace title)))) = false := rfl
        have hf : filterAdminBlocks
            (.cons (titleParagraph (normalizeWhitespace title)) .nil)
            = .cons (titleParagraph (normalizeWhitespace title)) .nil := by
          show filterAdminAux none _ = _
          simp only [filterAdminAux, htpNe, hadm', hnone, Bool.false_eq_true, if_false]
        rw [hf]
        have ht : truncateAfterStopKeywords
            (.cons (titleParagraph (normalizeWhitespace title)) .nil)
            = .cons (titleParagraph (normalizeWhitespace title)) .nil := by
          simp only [truncateAfterStopKeywords, htpStop, Bool.false_eq_true, if_false]
        rw [ht]
        unfold ensureTitleBlock
        simp [hnt, htpMatch]
    | cons b rest =>
      by_cases hm : (lowerStr (normText b) == lowerStr (normalizeWhitespace title)) = true
      · have hens : ensureTitleBlock (.cons b rest) title = .cons b rest := by
          unfold ensureTitleBlock
          simp [hnt, hm]
        rw [hens]
        rw [show filterAdminBlocks (.cons b rest) = filterAdminAux none (.cons b rest)
          from rfl]
        rw [filterAdminAux_id none _ hGood hDist, truncate_id _ hStop, hens]
      · have hm' : (lowerStr (normText b) == lowerStr (normalizeWhitespace title)) = false := by
          simpa using hm
        have hens : ensureTitleBlock (.cons b rest) title
            = .cons (titleParagraph (normalizeWhitespace title)) (.cons b rest) := by
          unfold ensureTitleBlock
          simp [hnt, hm']
        rw [hens]
        by_cases hadm : isAdminBlock (titleParagraph (normalizeWhitespace title))
            (normText (titleParagraph (normalizeWhitespace title))) = true
        · have hf : filterAdminBlocks
              (.cons (titleParagraph (normalizeWhitespace title)) (.cons b rest))
              = .cons b rest := by
            show filterAdminAux none _ = _
            rw [filterAdminAux_cons_dropAdmin none _ _ htpNe hadm]
            exact filterAdminAux_id none _ hGood hDist
          rw [hf, truncate_id _ hStop]
          exact hens
        · have hadm' : isAdminBlock (titleParagraph (normalizeWhitespace title))
              (normText (titleParagraph (normalizeWhitespace title))) = false := by
            simpa using hadm
          have hnone : ((none : Option String)
              == some (normText (titleParagraph (normalizeWhitespace title)))) = false := rfl
          have hdist2 : distinctFrom (some (normalizeWhitespace title)) (.cons b rest)
              = true := by
            simp only [distinctFrom, Bool.and_eq_true]
            constructor
            · have hne : (normText b == normalizeWhitespace title) = false :=
                ne_of_lower_ne _ _ hm'
              have hne2 : normalizeWhitespace title ≠ normText b := by
                intro he
                rw [beq_eq_false_iff_ne] at hne
                exact hne he.symm
              simpa using hne2
            · have hd := hDist
              simp only [distinctFrom, Bool.and_eq_true] at hd
              exact hd.2
          have hf : filterAdminBlocks
              (.cons (titleParagraph (normalizeWhitespace title)) (.cons b rest))
              = .cons (titleParagraph (normalizeWhitespace title)) (.cons b rest) := by
            show filterAdminAux none _ = _
            rw [filterAdminAux_cons_keep none _ _ htpNe hadm' hnone, htpText,
              filterAdminAux_id (some (normalizeWhitespace title)) _ hGood hdist2]
          rw [hf]
          have ht : truncateAfterStopKeywords
              (.cons (titleParagraph (normalizeWhitespace title)) (.cons b rest))
              = .cons (titleParagraph (normalizeWhitespace title)) (.cons b rest) := by
            rw [truncate_cons_keep _ _ htpStop, truncate_id _ hStop]
          rw [ht]
          unfold ensureTitleBlock
          simp [hnt, htpMatch]

/-! ## Text-leaf merging: where the re-parse agrees with the split form -/

theorem consMerged_elem (t : String) (a : List (String × String)) (c : NodeList)
    (rest : NodeList) : consMerged (.elem t a c) rest = .cons (.elem t a c) rest := rfl

theorem consMerged_text_ne (s : String) (h : (s == "") = false) (rest : NodeList)
    (hh : headText rest = false) :
    consMerged (.text s) rest = .cons (.text s) rest := by
  simp only [consMerged, h, Bool.false_eq_true, if_false]
  cases rest with
  | nil => rfl
  | cons m ms =>
    cases m with
    | text s2 => simp [headText] at hh
    | elem t2 a2 c2 => rfl

mutual
theorem mergeN_id : ∀ n, tmN n = true → mergeN n = n
  | .text _ => fun _ => rfl
  | .elem t a c => fun h => by
    simp only [tmN] at h
    simp only [mergeN]
    rw [mergeL_id c h]
theorem mergeL_id : ∀ ns, tmL ns = true → mergeL ns = ns
  | .nil => fun _ => rfl
  | .cons n ns => fun h => by
    simp only [tmL, Bool.and_eq_true] at h
    obtain ⟨⟨h1, h2⟩, h3⟩ := h
    have hml : mergeL ns = ns := mergeL_id ns h3
    cases n with
    | elem t a c =>
      have hmn : mergeN (.elem t a c) = .elem t a c := mergeN_id _ h1
      simp only [mergeL, hmn, hml, consMerged_elem]
    | text s =>
      have hs : (s == "") = false := by
        simp only [tmN] at h1
        simpa using h1
      have hht : headText ns = false := by
        simp only [isTextN, Bool.true_and, Bool.not_eq_true'] at h2
        exact h2
      simp only [mergeL, mergeN, hml]
      exact consMerged_text_ne s hs ns hht
end

/-- On blocks with merged text leaves the faithful re-parse coincides with
the split-preserving one. -/
theorem reparse_eq_keep : ∀ B, nlAll tmN B = true →
    reparseRendered B = reparseKeep B
  | .nil => fun _ => rfl
  | .cons b .nil => fun h => by
    simp only [nlAll, Bool.and_eq_true] at h
    simp only [reparseRendered, reparseKeep]
    rw [mergeN_id b h.1]
  | .cons b (.cons b' bs) => fun h => by
    simp only [nlAll, Bool.and_eq_true] at h
    simp only [reparseRendered, reparseKeep]
    rw [mergeN_id b h.1,
      reparse_eq_keep (.cons b' bs) (by simp [nlAll, h.2.1, h.2.2])]

/-- Serialization loses text-leaf splits: on `exSplitDoc` with title
`"Kurs"` the first run's block `<p>` holds the leaves `"i"`, `"ban"` (text
`"i ban"`, kept), its rendering `<p>iban</p>` re-parses to the single leaf
`"iban"`, and the second run's boilerplate filter drops that block as an
always-match admin keyword — the pipeline is not idempotent here even though
the title avoids the stop keywords and no `p` wraps a block-like child. -/
theorem splitText_not_idem :
    extractDescription (reparseRendered (extractBlocks exSplitDoc "Kurs")) "Kurs"
      ≠ extractDescription exSplitDoc "Kurs" := by decide

/-- C2 (counterexample): the description pipeline is not idempotent as claimed.
With course title `"Ort"` and the one-paragraph fragment `<p>Hallo</p>`, the
first run prepends the bold title paragraph and renders
`<p><strong>Ort</strong></p>\n\n<p>Hallo</p>`; on the second run the
truncation pass sees that the (re-parsed) title block's lowered text starts
with the stop keyword `ort` and discards everything, after which
`ensure_title_block` re-inserts only the title paragraph — the output shrinks
to `<p><strong>Ort</strong></p>`. -/
theorem extractDescription_idem_cex :
    extractDescription (reparseRendered (extractBlocks exHalloDoc "Ort")) "Ort"
      ≠ extractDescription exHalloDoc "Ort" := by decide

/-- C2 (amended): the description pipeline is idempotent — running it again on
the re-parse of its own rendered output with the same title yields the same
output string — provided the title's lowered normalized text does not start
with a stop keyword (otherwise the second run truncates at the title block
itself) and no extracted block is a `p` carrying a block-like child (the one
tree shape on which `unwrap_block_wrappers` still acts in the second run,
reachable because `normalize_orphan_list_items` runs after it and can nest a
synthesized `ul` inside a `p`) and no extracted block carries an empty text
leaf or two adjacent text leaves (serialization cannot record such splits,
re-parsing returns the merged leaf, and `get_text(" ")` space-joins leaves,
so a split changes the second run's text and with it the admin/stop
decisions — see `splitText_not_idem`). -/
theorem extractDescription_idem (doc : NodeList) (title : String)
    (h1 : titleStopB title = false)
    (h2 : nlAll nbN (extractBlocks doc title) = true)
    (h3 : nlAll tmN (extractBlocks doc title) = true) :
    extractDescription (reparseRendered (extractBlocks doc title)) title
      = extractDescription doc title := by
  rw [reparse_eq_keep _ h3]
  have hsanSane : ∀ t a, memStr (convertSpanFormatting t a).1 allowedTags = true →
      saneQ (convertSpanFormatting t a).1
        (sanitizeAttrs (convertSpanFormatting t a).1 (convertSpanFormatting t a).2) = true := by
    intro t a hm
    simp only [saneQ, Bool.and_eq_true]
    refine ⟨hm, ?_⟩
    rw [sanitizeAttrs_idem]
    simp
  have hSaneDoc : allElemsL saneQ (cleanDoc doc) = true := by
    unfold cleanDoc
    exact allElems_pruneL _ _ (allElems_groupLi _ (by decide) _
      (allElems_noliL _ (by decide) _ (allElems_uwL _ _
        (allElems_sanitizeL saneQ hsanSane (removeL doc)))))
  have hSaneColl : nlAll (allElemsN saneQ) (collectBlocks (cleanDoc doc)) = true := by
    rw [← allElemsL_eq_nlAll]
    exact allElems_collect saneQ (by decide) _ hSaneDoc
  have hSaneEB : nlAll (allElemsN saneQ) (extractBlocks doc title) = true := by
    unfold extractBlocks
    refine ensure_nlAll _ _ _
      (nlAll_truncate _ _ (nlAll_filterAdminAux _ none _ hSaneColl)) ?_
    intro _
    rfl
  have hLiDoc : liOkL false (cleanDoc doc) = true := by
    unfold cleanDoc
    refine liOk_pruneL false _ ?_
    exact liOk_groupLiAux _ .nil rfl (liOkTrue_noliL _)
  have hLiEB : nlAll (liOkN false) (extractBlocks doc title) = true := by
    unfold extractBlocks
    refine ensure_nlAll _ _ _
      (nlAll_truncate _ _ (nlAll_filterAdminAux _ none _ (liOk_collect _ hLiDoc))) ?_
    intro _
    rfl
  have hTextEB : nlAll neTextN (extractBlocks doc title) = true := by
    unfold extractBlocks
    refine ensure_nlAll _ _ _
      (nlAll_truncate _ _ (nlAll_filterAdminAux _ none _ (neText_collect _ ?_))) ?_
    · unfold cleanDoc
      exact neText_pruneL _
    · intro hne
      exact neText_titlePara title hne
  have hBlockEB : nlAll blockTagB (extractBlocks doc title) = true := by
    unfold extractBlocks
    refine ensure_nlAll _ _ _
      (nlAll_truncate _ _ (nlAll_filterAdminAux _ none _ (blockTag_collect _))) ?_
    intro _
    rfl
  have hclean : cleanDoc (reparseKeep (extractBlocks doc title))
      = reparseKeep (extractBlocks doc title) :=
    cleanDoc_id_of_blocks _ hSaneEB h2 hLiEB hTextEB
  have hcoll : collectBlocks (reparseKeep (extractBlocks doc title))
      = extractBlocks doc title :=
    collect_reparse _ hBlockEB
  have hround := ensure_roundtrip
    (truncateAfterStopKeywords (filterAdminBlocks (collectBlocks (cleanDoc doc)))) title h1
    (nlAll_truncate _ _ (filterAdmin_establish none _).1)
    (distinctFrom_truncate none _ (filterAdmin_establish none _).2)
    (truncate_establishStop _)
  show blocksToString (ensureTitleBlock (truncateAfterStopKeywords (filterAdminBlocks
      (collectBlocks (cleanDoc (reparseKeep (extractBlocks doc title)))))) title)
    = blocksToString (extractBlocks doc title)
  rw [hclean, hcoll]
  rw [show extractBlocks doc title = ensureTitleBlock (truncateAfterStopKeywords
    (filterAdminBlocks (collectBlocks (cleanDoc doc)))) title from rfl]
  rw [hround]

/-- Witness for `extractDescription_idem` at a concrete input: title `"Kurs"`
on the fragment `<p>Hallo</p>` satisfies both hypotheses and the pipeline is
idempotent there. -/
theorem extractDescription_idem_witness :
    extractDescription (reparseRendered (extractBlocks exHalloDoc "Kurs")) "Kurs"
      = extractDescription exHalloDoc "Kurs" :=
  extractDescription_idem exHalloDoc "Kurs" (by decide) (by decide) (by decide)

end VhsClean
